import Mathlib

/-!
Verification of the note and harmony extraction engine of the `midi`
repository, shallowly embedded in Lean 4.

The embedding follows the Python sources:
* `key_chord_detection.py` — Krumhansl–Schmuckler key detection
  (`detect_key_krumhansl`), template chord detection (`detect_chord`),
  chord-progression smoothing (`detect_chord_progression`).
* `pitch_detect_advanced.py` — grid quantization (`quantize_to_grid`) and the
  monophonic note tracker (`detect_midi_notes_advanced`).
* `polyphonic_transcription.py` — the polyphonic note tracker
  (`detect_polyphonic_notes`).

Floating point numbers are modelled as exact rationals.  The Python code
compares Pearson correlations and cosine similarities, both of which have the
shape `n / Real.sqrt d` with `d > 0`; to keep the embedding executable these
values are carried as exact pairs `⟨n, d⟩` (structure `Sim` below) and the
comparisons are performed exactly.  Lemma `Sim.lt_iff_val` proves that the
exact comparison agrees with the real-number comparison of `n / Real.sqrt d`.
-/

/-- An exact representation of a similarity/correlation value `num / √den`.
The Python code only ever compares such values (against each other and
against a rational threshold); `den > 0` in every use below. -/
structure Sim where
  num : ℚ
  den : ℚ
deriving DecidableEq

/-- Exact strict comparison of `a.num / √a.den < b.num / √b.den`
(for positive denominators), by sign analysis and cross-squaring. -/
def Sim.lt (a b : Sim) : Prop :=
  (a.num < 0 ∧ 0 ≤ b.num) ∨
  (0 ≤ a.num ∧ 0 ≤ b.num ∧ a.num ^ 2 * b.den < b.num ^ 2 * a.den) ∨
  (a.num < 0 ∧ b.num < 0 ∧ b.num ^ 2 * a.den < a.num ^ 2 * b.den)

instance (a b : Sim) : Decidable (Sim.lt a b) := by
  unfold Sim.lt; infer_instance

/-- Exact comparison `a.num / √a.den ≤ b.num / √b.den` (for positive
denominators), as the negation of the mirrored strict comparison. -/
def Sim.le (a b : Sim) : Prop := ¬ Sim.lt b a

instance (a b : Sim) : Decidable (Sim.le a b) := by
  unfold Sim.le; infer_instance

/-! ### Key detection (`detect_key_krumhansl`) -/

/-- Major/minor mode, as in the strings `'major'` / `'minor'` of the source. -/
inductive Mode where
  | major : Mode
  | minor : Mode
deriving DecidableEq

/-- `MAJOR_PROFILE` from `key_chord_detection.py`, as a list of rationals. -/
def majorProfileL : List ℚ :=
  [6.35, 2.23, 3.48, 2.33, 4.38, 4.09, 2.52, 5.19, 2.39, 3.66, 2.29, 2.88]

/-- `MINOR_PROFILE` from `key_chord_detection.py`. -/
def minorProfileL : List ℚ :=
  [6.33, 2.68, 3.52, 5.38, 2.60, 3.53, 2.54, 4.75, 3.98, 2.69, 3.34, 3.17]

/-- The major Krumhansl–Schmuckler profile as a pitch-class vector. -/
def MAJOR_PROFILE : Fin 12 → ℚ := fun i => majorProfileL.getD i.val 0

/-- The minor Krumhansl–Schmuckler profile as a pitch-class vector. -/
def MINOR_PROFILE : Fin 12 → ℚ := fun i => minorProfileL.getD i.val 0

/-- The profile used for a given mode. -/
def profileOf : Mode → (Fin 12 → ℚ)
  | Mode.major => MAJOR_PROFILE
  | Mode.minor => MINOR_PROFILE

/-- `np.roll(c, s)` on a 12-vector: entry `i` of the result is entry
`i - s` (mod 12) of `c`. -/
def rollF (c : Fin 12 → ℚ) (s : Fin 12) : Fin 12 → ℚ := fun i => c (i - s)

/-- Sum of the entries of a pitch-class vector (as a list fold, so that it
evaluates by kernel reduction; `sumF_finset` relates it to the
`Finset` sum). -/
def sumF (c : Fin 12 → ℚ) : ℚ := ((List.finRange 12).map c).sum

/-- Dot product of two pitch-class vectors (as a list fold). -/
def dotF (x y : Fin 12 → ℚ) : ℚ := ((List.finRange 12).map (fun i => x i * y i)).sum

/-- `scipy.stats.pearsonr(x, y)` (the correlation coefficient only), as an
exact `Sim` value: the correlation equals
`(12·Σxy − Σx·Σy) / √((12·Σx² − (Σx)²) · (12·Σy² − (Σy)²))`. -/
def pearsonSim (x y : Fin 12 → ℚ) : Sim :=
  ⟨12 * dotF x y - sumF x * sumF y,
   (12 * dotF x x - sumF x ^ 2) * (12 * dotF y y - sumF y ^ 2)⟩

/-- The 24 key candidates in the order the source builds its `correlations`
list: for each shift 0..11, first major then minor. -/
def keyCandidates : List (Fin 12 × Mode) :=
  (List.finRange 12).flatMap (fun s => [(s, Mode.major), (s, Mode.minor)])

/-- The `correlations` list built by `detect_key_krumhansl`: for each
candidate, roll the chroma vector by the shift and correlate with the
mode's profile. -/
def keyCorrelations (c : Fin 12 → ℚ) : List (Fin 12 × Mode × Sim) :=
  keyCandidates.map
    (fun km => (km.1, km.2, pearsonSim (rollF c km.1) (profileOf km.2)))

/-- Python's `max(correlations, key=lambda x: x[2])`: the first element with
maximal correlation (the running best is replaced only on strict
improvement). -/
def bestCorr : List (Fin 12 × Mode × Sim) → Fin 12 × Mode × Sim
  | [] => (0, Mode.major, ⟨0, 1⟩)
  | x :: rest =>
      rest.foldl (fun best y => if Sim.lt best.2.2 y.2.2 then y else best) x

/-- `detect_key_krumhansl`. -/
def detectKey (c : Fin 12 → ℚ) : Fin 12 × Mode × Sim :=
  bestCorr (keyCorrelations c)

/-! ### Chord detection (`detect_chord`) -/

/-- The chord types, in the insertion order of `CHORD_TEMPLATES`. -/
inductive ChordType where
  | major : ChordType
  | minor : ChordType
  | diminished : ChordType
  | augmented : ChordType
  | major7 : ChordType
  | minor7 : ChordType
  | dominant7 : ChordType
deriving DecidableEq

/-- The template lists of `CHORD_TEMPLATES`. -/
def chordTemplateL : ChordType → List ℚ
  | ChordType.major => [1, 0, 0, 0, 1, 0, 0, 1, 0, 0, 0, 0]
  | ChordType.minor => [1, 0, 0, 1, 0, 0, 0, 1, 0, 0, 0, 0]
  | ChordType.diminished => [1, 0, 0, 1, 0, 0, 1, 0, 0, 0, 0, 0]
  | ChordType.augmented => [1, 0, 0, 0, 1, 0, 0, 0, 1, 0, 0, 0]
  | ChordType.major7 => [1, 0, 0, 0, 1, 0, 0, 1, 0, 0, 0, 1]
  | ChordType.minor7 => [1, 0, 0, 1, 0, 0, 0, 1, 0, 0, 1, 0]
  | ChordType.dominant7 => [1, 0, 0, 0, 1, 0, 0, 1, 0, 0, 1, 0]

/-- A chord template as a pitch-class vector. -/
def tmpl (t : ChordType) : Fin 12 → ℚ := fun i => (chordTemplateL t).getD i.val 0

/-- The list of chord types in dictionary insertion order. -/
def chordTypes : List ChordType :=
  [ChordType.major, ChordType.minor, ChordType.diminished, ChordType.augmented,
   ChordType.major7, ChordType.minor7, ChordType.dominant7]

/-- The 84 (root, chord type) candidates in the order `detect_chord`
iterates them: outer loop over roots 0..11, inner loop over the templates. -/
def chordCandidates : List (Fin 12 × ChordType) :=
  (List.finRange 12).flatMap (fun r => chordTypes.map (fun t => (r, t)))

/-- `chroma_frame / np.sum(chroma_frame)`. -/
def normalizeChroma (c : Fin 12 → ℚ) : Fin 12 → ℚ := fun i => c i / sumF c

/-- The cosine similarity of `np.roll(chroma, -root)` with a chord template:
`dot(rot, tmpl) / sqrt(dot(tmpl, tmpl) * dot(rot, rot))`, as an exact
`Sim` value.  `np.roll(c, -root)` is `rollF c (-root)`. -/
def chordSim (c : Fin 12 → ℚ) (cand : Fin 12 × ChordType) : Sim :=
  ⟨dotF (rollF c (-cand.1)) (tmpl cand.2),
   dotF (tmpl cand.2) (tmpl cand.2) * dotF (rollF c (-cand.1)) (rollF c (-cand.1))⟩

/-- The list of all 84 candidate similarities of a (normalized) chroma
frame, in iteration order. -/
def chordSims (c : Fin 12 → ℚ) : List ((Fin 12 × ChordType) × Sim) :=
  chordCandidates.map (fun cand => (cand, chordSim c cand))

/-- One step of the inner loop of `detect_chord`: replace the running
best correlation and best match on strict improvement. -/
def chordStep (best : Sim × Option (Fin 12 × ChordType × Sim))
    (x : (Fin 12 × ChordType) × Sim) : Sim × Option (Fin 12 × ChordType × Sim) :=
  if Sim.lt best.1 x.2 then (x.2, some (x.1.1, x.1.2, x.2)) else best

/-- The inner loop of `detect_chord`, starting from
`best_correlation = -1`, `best_match = None`. -/
def bestChord (l : List ((Fin 12 × ChordType) × Sim)) :
    Sim × Option (Fin 12 × ChordType × Sim) :=
  l.foldl chordStep (⟨-1, 1⟩, none)

/-- `detect_chord`.  Returns `none` for the unlabeled outcome
`(None, None, 0)`: when the chroma sum is not positive, or when the best
correlation is below the threshold. -/
def detectChord (c : Fin 12 → ℚ) (th : ℚ) : Option (Fin 12 × ChordType × Sim) :=
  if 0 < sumF c then
    let r := bestChord (chordSims (normalizeChroma c))
    if Sim.le ⟨th, 1⟩ r.1 then r.2 else none
  else none

/-! ### Chord-progression smoothing (`detect_chord_progression`) -/

/-- A detected chord sub-segment `(time, chord label, confidence)`; the label
`(root, type)` stands for the chord-name string of the source. -/
abbrev ChordEntry : Type := ℚ × (Fin 12 × ChordType) × ℚ

/-- A smoothed segment `(start, duration, chord label, confidence)`. -/
abbrev ChordSeg : Type := ℚ × ℚ × (Fin 12 × ChordType) × ℚ

/-- The smoothing loop of `detect_chord_progression`, after the first entry
has been loaded into `current` (whose time is the running `chord_start`):
on a label change, emit the running chord with duration up to the changed
entry's time; at the end, emit the running chord with duration up to
`tEnd` (= `times[-1]`). -/
def smoothAux (cur : ChordEntry) : List ChordEntry → ℚ → List ChordSeg
  | [], tEnd => [(cur.1, tEnd - cur.1, cur.2.1, cur.2.2)]
  | e :: rest, tEnd =>
      if e.2.1 ≠ cur.2.1 then
        (cur.1, e.1 - cur.1, cur.2.1, cur.2.2) :: smoothAux e rest tEnd
      else
        smoothAux cur rest tEnd

/-- The smoothing pass of `detect_chord_progression` (lines 202-218). -/
def smoothProgression : List ChordEntry → ℚ → List ChordSeg
  | [], _ => []
  | e :: rest, tEnd => smoothAux e rest tEnd

/-! ### Grid quantization (`quantize_to_grid`, `pitch_detect_advanced.py`) -/

/-- `np.diff`: successive differences. -/
def diffL : List ℚ → List ℚ
  | [] => []
  | [_] => []
  | a :: b :: t => (b - a) :: diffL (b :: t)

/-- `np.mean`. -/
def meanL (l : List ℚ) : ℚ := l.sum / (l.length : ℚ)

/-- Python 3 / numpy `round`: round half to even. -/
def rnd (x : ℚ) : ℤ :=
  if x - (⌊x⌋ : ℚ) < 1/2 then ⌊x⌋
  else if 1/2 < x - (⌊x⌋ : ℚ) then ⌊x⌋ + 1
  else if 2 ∣ ⌊x⌋ then ⌊x⌋ else ⌊x⌋ + 1

/-- `beat_times[np.argmin(np.abs(beat_times - time))]`: the first list
element at minimal absolute distance from `t` (`np.argmin` returns the
first index attaining the minimum). -/
def argminAbs (t : ℚ) : List ℚ → ℚ
  | [] => 0
  | [b] => b
  | b :: c :: rest =>
      if |argminAbs t (c :: rest) - t| < |b - t| then argminAbs t (c :: rest) else b

/-- `quantize_to_grid(time, beat_times, subdivisions)`. -/
def quantizeToGrid (beats : List ℚ) (subs : ℕ) (time : ℚ) : ℚ :=
  if beats.length < 2 then time
  else
    let beatDuration := meanL (diffL beats)
    let subDuration := beatDuration / (subs : ℚ)
    let nearestBeat := argminAbs time beats
    let offset := time - nearestBeat
    let k := rnd (offset / subDuration)
    max 0 (nearestBeat + (k : ℚ) * subDuration)

/-- Quantization of a note list, as performed inside
`detect_midi_notes_advanced`: start and end are quantized independently
and the duration is recomputed as their difference.  A note is the pair
`(start, duration)`. -/
def quantizeNotes (beats : List ℚ) (subs : ℕ) (notes : List (ℚ × ℚ)) :
    List (ℚ × ℚ) :=
  notes.map (fun n =>
    let qs := quantizeToGrid beats subs n.1
    let qe := quantizeToGrid beats subs (n.1 + n.2)
    (qs, qe - qs))

/-! ### Monophonic tracker (`detect_midi_notes_advanced`)

Frame `i` has time `i * Δ` where `Δ = hop_length / sr`
(`librosa.frames_to_time` of frame `i`).  The first pass per frame is
embedded in `framePitch`; the hz→midi conversion
(`round(librosa.hz_to_midi(freq))`) is transcendental, so it is an abstract
parameter `h2m` of the embedding. -/

/-- One column of the `piptrack` output plus the frame's RMS energy:
the (already median-filtered) magnitude column and the per-bin pitch
frequencies. -/
structure AFrame where
  rms : ℚ
  mags : List ℚ
  freqs : List ℚ

/-- `ndarray.max()` of a magnitude column (columns are nonnegative, and the
source never calls it on an empty array, so a default of 0 is faithful). -/
def maxQ (l : List ℚ) : ℚ := l.foldr max 0

/-- `np.argmax`: first index attaining the maximum. -/
def argmaxIdx (l : List ℚ) : ℕ := l.findIdx (fun x => decide (maxQ l ≤ x))

/-- First pass of `detect_midi_notes_advanced` (lines 118-145) for one
frame: silent or quiet frames are unvoiced (`(none, 0)`); otherwise the
pitch of the strongest bin is reported with confidence
`mag.max() / mag_threshold`. -/
def framePitch (magTh silTh : ℚ) (h2m : ℚ → ℤ) (fr : AFrame) : Option ℤ × ℚ :=
  if fr.rms < silTh then (none, 0)
  else if maxQ fr.mags < magTh then (none, 0)
  else
    let freq := fr.freqs.getD (argmaxIdx fr.mags) 0
    if 0 < freq then (some (h2m freq), maxQ fr.mags / magTh) else (none, 0)

/-- `np.cumsum`. -/
def cumsum (l : List ℚ) : List ℚ := go 0 l where
  go (acc : ℚ) : List ℚ → List ℚ
    | [] => []
    | x :: xs => (acc + x) :: go (acc + x) xs

/-- The weighted-median close computation of `detect_midi_notes_advanced`
(lines 164-180): sort the accumulated (pitch, confidence) pairs by pitch
(Python's `sorted` is stable), take the cumulative sum of the confidences,
and select the pitch at index `np.searchsorted(cumsum, cumsum[-1]/2)`
(leftmost index whose cumulative weight reaches half the total).  With an
empty accumulator the source falls back to `current_note`. -/
def closePitch (cur : ℤ) (confs : List (ℤ × ℚ)) : ℤ :=
  if confs.isEmpty then cur
  else
    let s := confs.insertionSort (fun a b => a.1 ≤ b.1)
    let cs := cumsum (s.map (fun x => x.2))
    let half := cs.getLastD 0 / 2
    let idx := cs.findIdx (fun x => decide (half ≤ x))
    (s.getD idx (cur, 0)).1

/-- `Modelled from the spec:` the confidence-weighted median procedure as the
spec words it — sort the weighted samples by value and walk the list,
returning the first value whose running cumulative weight reaches half the
total weight. -/
def wmGo (half : ℚ) (acc : ℚ) : List (ℤ × ℚ) → ℤ
  | [] => 0
  | (p, c) :: rest => if half ≤ acc + c then p else wmGo half (acc + c) rest

/-- `Modelled from the spec:` the confidence-weighted median of a list of
(pitch, confidence) pairs. -/
def wmedianSpec (pairs : List (ℤ × ℚ)) : ℤ :=
  let s := pairs.insertionSort (fun a b => a.1 ≤ b.1)
  wmGo ((s.map (fun x => x.2)).sum / 2) 0 s

/-- `should_continue`: the frame's pitch continues the active note iff both
exist and they differ by at most one semitone. -/
def contOk : Option ℤ → Option ℤ → Bool
  | some c, some p => decide (|p - c| ≤ 1)
  | _, _ => false

/-- The loop state of the second pass: `current_note`, `note_start`,
`note_confidences`, and the emitted notes so far. -/
structure MState where
  cur : Option ℤ
  start : Option ℚ
  confs : List (ℤ × ℚ)
  notes : List (ℚ × ℚ × ℤ)

/-- One iteration of the second pass of `detect_midi_notes_advanced`
(lines 153-199), without quantization (the `tempo_analysis=False` /
`beat_times is None` path): on a frame that neither equals nor continues
the current note, close the current note — duration `times[i-1] - start`,
kept iff at least `min_note_duration`, final pitch the weighted median —
and restart; on a continuing frame, accumulate the (pitch, confidence)
pair. -/
def trackStep (dlt minDur : ℚ) (st : MState) (ip : ℕ × Option ℤ × ℚ) : MState :=
  let i := ip.1
  let pitch := ip.2.1
  let conf := ip.2.2
  if pitch ≠ st.cur ∧ contOk st.cur pitch = false then
    let notes1 :=
      match st.cur, st.start with
      | some c, some s =>
          let d := ((i - 1 : ℕ) : ℚ) * dlt - s
          if minDur ≤ d then st.notes ++ [(s, d, closePitch c st.confs)]
          else st.notes
      | _, _ => st.notes
    { cur := pitch,
      start := match pitch with | some _ => some ((i : ℚ) * dlt) | none => none,
      confs := match pitch with | some q => [(q, conf)] | none => [],
      notes := notes1 }
  else if contOk st.cur pitch = true ∧ pitch.isSome then
    match pitch with
    | some q => { st with confs := st.confs ++ [(q, conf)] }
    | none => st
  else st

/-- The second pass of `detect_midi_notes_advanced` over a frame sequence
(each frame is the `(pitch, confidence)` result of the first pass),
including the final close at `times[-1]` — which emits `current_note`
itself as the pitch (lines 201-211). -/
def trackNotes (dlt minDur : ℚ) (frames : List (Option ℤ × ℚ)) :
    List (ℚ × ℚ × ℤ) :=
  let st := frames.enum.foldl (trackStep dlt minDur) ⟨none, none, [], []⟩
  match st.cur, st.start with
  | some c, some s =>
      let d := ((frames.length - 1 : ℕ) : ℚ) * dlt - s
      if minDur ≤ d then st.notes ++ [(s, d, c)] else st.notes
  | _, _ => st.notes

/-- `notes.sort(key=lambda x: x[0])`: stable sort by start time. -/
def sortNotes {α : Type} (l : List (ℚ × α)) : List (ℚ × α) :=
  l.insertionSort (fun a b => a.1 ≤ b.1)

/-- The overlap-removal pass of `detect_midi_notes_advanced`
(lines 216-228): if a note starts before the previous one ends, the
previous note's duration is trimmed to `start - prev_start`. -/
def removeOverlaps : List (ℚ × ℚ × ℤ) → List (ℚ × ℚ × ℤ)
  | [] => []
  | [a] => [a]
  | a :: b :: t =>
      (if b.1 < a.1 + a.2.1 then (a.1, b.1 - a.1, a.2.2) else a)
        :: removeOverlaps (b :: t)

/-- `detect_midi_notes_advanced` end to end (first pass, consolidation,
sort, overlap removal), on the unquantized path. -/
def trackerRun (dlt magTh silTh minDur : ℚ) (h2m : ℚ → ℤ)
    (frames : List AFrame) : List (ℚ × ℚ × ℤ) :=
  removeOverlaps
    (sortNotes (trackNotes dlt minDur (frames.map (framePitch magTh silTh h2m))))

/-! ### Polyphonic tracker (`detect_polyphonic_notes`)

The salience matrix is embedded as the list of its per-frame columns; pitch
candidates are indices into a column, with MIDI pitch `21 + index`
(`midi_pitches = np.arange(21, 109)`).  Frame `i` has time `i * Δ`. -/

/-- An active-note record: pitch index, start frame, covered frames. -/
abbrev PAct : Type := ℕ × ℕ × List ℕ

/-- An emitted polyphonic note `(start, duration, pitch, velocity)`. -/
abbrev PNote : Type := ℚ × ℚ × ℤ × ℤ

/-- Per-frame normalization `salience / max(salience)` (a zero maximum is
replaced by 1). -/
def normalizeCol (col : List ℚ) : List ℚ :=
  let m := maxQ col
  let m1 := if m = 0 then 1 else m
  col.map (fun x => x / m1)

/-- Model of `scipy.signal.find_peaks(col, height=th)` before distance
pruning: indices of interior strict local maxima whose value reaches the
height threshold (plateau peaks do not occur in the claims below and are
not modelled). -/
def peakIdx (th : ℚ) (col : List ℚ) : List ℕ :=
  (List.range col.length).filter (fun i =>
    decide (1 ≤ i) && decide (i + 1 < col.length) &&
    decide (col.getD (i - 1) 0 < col.getD i 0) &&
    decide (col.getD (i + 1) 0 < col.getD i 0) &&
    decide (th ≤ col.getD i 0))

/-- Peaks with their heights, sorted by descending height (the order in
which `find_peaks`'s `distance` pruning considers them, and the order of
`np.argsort(peak_heights)[::-1]`; the tie order among equal heights is a
modelling choice). -/
def sortByHeightDesc (col : List ℚ) (pk : List ℕ) : List (ℕ × ℚ) :=
  (pk.map (fun i => (i, col.getD i 0))).insertionSort (fun a b => b.2 ≤ a.2)

/-- `find_peaks`'s `distance=3` pruning: consider peaks from highest to
lowest, keeping a peak iff it is at least 3 bins away from every
already-kept peak. -/
def pruneGo (kept : List ℕ) : List (ℕ × ℚ) → List ℕ
  | [] => []
  | x :: xs =>
      if ∀ j ∈ kept, 3 ≤ |(x.1 : ℤ) - (j : ℤ)| then
        x.1 :: pruneGo (x.1 :: kept) xs
      else pruneGo kept xs

/-- The per-frame peak selection of `detect_polyphonic_notes`
(lines 112-123): find peaks at least 3 apart reaching the height
threshold, rank by height, keep at most `max_polyphony` of them.  The
result lists pitch indices. -/
def selectPitches (maxPoly : ℕ) (th : ℚ) (col : List ℚ) : List ℕ :=
  (pruneGo [] (sortByHeightDesc col (peakIdx th col))).take maxPoly

/-- Velocity of a closed note: `int(np.clip(avg_salience * 127, 20, 127))`
where `avg_salience` is the mean normalized salience of the covered
frames. -/
def velOf (normSal : ℕ → ℕ → ℚ) (p : ℕ) (fs : List ℕ) : ℤ :=
  let avg := (fs.map (fun f => normSal p f)).sum / (fs.length : ℚ)
  ⌊min 127 (max 20 (avg * 127))⌋

/-- Closing an active note against frame `f`: emitted iff its duration
`f*Δ - start` reaches the minimum duration. -/
def closeNote (dlt minDur : ℚ) (normSal : ℕ → ℕ → ℚ) (f : ℕ) (a : PAct) :
    Option PNote :=
  let s := (a.2.1 : ℚ) * dlt
  let d := (f : ℚ) * dlt - s
  if minDur ≤ d then some (s, d, 21 + (a.1 : ℤ), velOf normSal a.1 a.2.2)
  else none

/-- One frame of the per-pitch state machines (lines 125-151): pitches
among the kept peaks stay or become active (recording the covered frame);
active pitches that are absent close, emitting a note if long enough.
The source iterates a Python set, whose order is unspecified; the state is
kept as a list, processed in a fixed order, which is observationally
equivalent because the machines of distinct pitches are independent and
the final note list is sorted. -/
def polyStep (dlt minDur : ℚ) (normSal : ℕ → ℕ → ℚ)
    (st : List PAct × List PNote) (f : ℕ) (cur : List ℕ) :
    List PAct × List PNote :=
  let closed := (st.1.filter (fun a => !(decide (a.1 ∈ cur)))).filterMap
    (closeNote dlt minDur normSal f)
  let kept := (st.1.filter (fun a => decide (a.1 ∈ cur))).map
    (fun a => (a.1, a.2.1, a.2.2 ++ [f]))
  let fresh := (cur.filter (fun p => decide (∀ a ∈ st.1, a.1 ≠ p))).map
    (fun p => (p, f, ([f] : List ℕ)))
  (kept ++ fresh, st.2 ++ closed)

/-- The frame loop of `detect_polyphonic_notes`, processing the per-frame
kept-peak lists in frame order. -/
def polyRun (dlt minDur : ℚ) (normSal : ℕ → ℕ → ℚ) :
    ℕ → List PAct × List PNote → List (List ℕ) → List PAct × List PNote
  | _, st, [] => st
  | f, st, cur :: rest =>
      polyRun dlt minDur normSal (f + 1) (polyStep dlt minDur normSal st f cur) rest

/-- `detect_polyphonic_notes`: normalize each frame column, select the kept
peaks per frame, run the per-pitch state machines, close the still-active
notes against the final frame time, and sort by start time. -/
def detectPolyNotes (dlt minDur th : ℚ) (maxPoly : ℕ) (sal : List (List ℚ)) :
    List PNote :=
  let normed := sal.map normalizeCol
  let normSal : ℕ → ℕ → ℚ := fun p f => (normed.getD f []).getD p 0
  let currents := normed.map (selectPitches maxPoly th)
  let st := polyRun dlt minDur normSal 0 ([], []) currents
  let allNotes := st.2 ++ st.1.filterMap (closeNote dlt minDur normSal (sal.length - 1))
  allNotes.insertionSort (fun a b => a.1 ≤ b.1)

/-- Proof-side invariant of the polyphonic frame loop at frame counter `f`,
for a frame-indexed family `C` of kept-peak lists: active records started no
later than `f` and their pitch was kept in every frame of `[start, f)`;
emitted notes have grid endpoints, ended by `f`, and their pitch was kept
throughout their span; active pitches are distinct; every emitted note ends
no later than any same-pitch active record starts; and same-pitch emitted
notes have disjoint spans. -/
def polyInv (dlt : ℚ) (C : ℕ → List ℕ) (f : ℕ)
    (st : List PAct × List PNote) : Prop :=
  (∀ a ∈ st.1, a.2.1 ≤ f ∧ ∀ m, a.2.1 ≤ m → m < f → a.1 ∈ C m) ∧
  (∀ n ∈ st.2, ∃ p s e : ℕ, n.2.2.1 = 21 + (p : ℤ) ∧ n.1 = (s : ℚ) * dlt ∧
    n.1 + n.2.1 = (e : ℚ) * dlt ∧ e ≤ f ∧ ∀ m, s ≤ m → m < e → p ∈ C m) ∧
  (st.1.map (fun a => a.1)).Nodup ∧
  (∀ n ∈ st.2, ∀ a ∈ st.1, n.2.2.1 = 21 + (a.1 : ℤ) →
    n.1 + n.2.1 ≤ (a.2.1 : ℚ) * dlt) ∧
  st.2.Pairwise (fun n n' => n.2.2.1 = n'.2.2.1 →
    n.1 + n.2.1 ≤ n'.1 ∨ n'.1 + n'.2.1 ≤ n.1)

/-- The real value `num / √den` represented by a `Sim`.  This is the
proof-side semantics of the exact comparisons `Sim.lt` / `Sim.le`; the
embedded code itself never computes it. -/
noncomputable def simVal (s : Sim) : ℝ := (s.num : ℝ) / Real.sqrt ((s.den : ℚ) : ℝ)

/-! ### Order instances for the sorting relations -/

instance {α : Type} : IsTotal (ℚ × α) (fun a b => a.1 ≤ b.1) :=
  ⟨fun a b => le_total a.1 b.1⟩

instance {α : Type} : IsTrans (ℚ × α) (fun a b => a.1 ≤ b.1) :=
  ⟨fun _ _ _ hab hbc => le_trans hab hbc⟩

instance : IsTotal (ℤ × ℚ) (fun a b : ℤ × ℚ => a.1 ≤ b.1) :=
  ⟨fun a b => le_total a.1 b.1⟩

instance : IsTrans (ℤ × ℚ) (fun a b : ℤ × ℚ => a.1 ≤ b.1) :=
  ⟨fun _ _ _ hab hbc => le_trans hab hbc⟩

instance : IsTotal (ℕ × ℚ) (fun a b : ℕ × ℚ => b.2 ≤ a.2) :=
  ⟨fun a b => le_total b.2 a.2⟩

instance : IsTrans (ℕ × ℚ) (fun a b : ℕ × ℚ => b.2 ≤ a.2) :=
  ⟨fun _ _ _ hab hbc => le_trans hbc hab⟩

/-! ## Theorems -/

set_option maxRecDepth 8000

theorem Sim.lt_iff_val {a b : Sim} (ha : 0 < a.den) (hb : 0 < b.den) :
    Sim.lt a b ↔
      (a.num : ℝ) / Real.sqrt (a.den : ℝ) < (b.num : ℝ) / Real.sqrt (b.den : ℝ) := by
  have hra : (0 : ℝ) < (a.den : ℝ) := by exact_mod_cast ha
  have hrb : (0 : ℝ) < (b.den : ℝ) := by exact_mod_cast hb
  have hsa : (0 : ℝ) < Real.sqrt (a.den : ℝ) := Real.sqrt_pos.mpr hra
  have hsb : (0 : ℝ) < Real.sqrt (b.den : ℝ) := Real.sqrt_pos.mpr hrb
  have hsa2 : Real.sqrt (a.den : ℝ) * Real.sqrt (a.den : ℝ) = (a.den : ℝ) :=
    Real.mul_self_sqrt hra.le
  have hsb2 : Real.sqrt (b.den : ℝ) * Real.sqrt (b.den : ℝ) = (b.den : ℝ) :=
    Real.mul_self_sqrt hrb.le
  rw [div_lt_div_iff₀ hsa hsb]
  unfold Sim.lt
  rcases lt_or_le a.num 0 with hna | hna <;> rcases lt_or_le b.num 0 with hnb | hnb
  · -- both numerators negative
    have hrna : (a.num : ℝ) < 0 := by exact_mod_cast hna
    have hrnb : (b.num : ℝ) < 0 := by exact_mod_cast hnb
    constructor
    · rintro (⟨_, h⟩ | ⟨h, _⟩ | ⟨_, _, h⟩)
      · exact absurd hnb (not_lt.mpr h)
      · exact absurd hna (not_lt.mpr h)
      · have h' : (b.num : ℝ) ^ 2 * (a.den : ℝ) < (a.num : ℝ) ^ 2 * (b.den : ℝ) := by
          exact_mod_cast h
        by_contra hc
        push_neg at hc
        have h2 : (-(a.num : ℝ)) * Real.sqrt (b.den : ℝ) ≤
            (-(b.num : ℝ)) * Real.sqrt (a.den : ℝ) := by nlinarith
        have h3 := mul_self_le_mul_self (by nlinarith) h2
        nlinarith
    · intro h
      refine Or.inr (Or.inr ⟨hna, hnb, ?_⟩)
      have h2 : (-(b.num : ℝ)) * Real.sqrt (a.den : ℝ) < (-(a.num : ℝ)) * Real.sqrt (b.den : ℝ) := by
        nlinarith
      have h3 := mul_self_lt_mul_self (by nlinarith) h2
      have h4 : (b.num : ℝ) ^ 2 * (a.den : ℝ) < (a.num : ℝ) ^ 2 * (b.den : ℝ) := by
        nlinarith
      exact_mod_cast h4
  · -- a negative, b nonnegative
    have hrna : (a.num : ℝ) < 0 := by exact_mod_cast hna
    have hrnb : (0 : ℝ) ≤ (b.num : ℝ) := by exact_mod_cast hnb
    constructor
    · intro _; nlinarith
    · intro _; exact Or.inl ⟨hna, hnb⟩
  · -- a nonnegative, b negative
    have hrna : (0 : ℝ) ≤ (a.num : ℝ) := by exact_mod_cast hna
    have hrnb : (b.num : ℝ) < 0 := by exact_mod_cast hnb
    constructor
    · rintro (⟨h, _⟩ | ⟨_, h, _⟩ | ⟨h, _, _⟩)
      · exact absurd hna (not_le.mpr h)
      · exact absurd hnb (not_lt.mpr h)
      · exact absurd hna (not_le.mpr h)
    · intro h; nlinarith
  · -- both nonnegative
    have hrna : (0 : ℝ) ≤ (a.num : ℝ) := by exact_mod_cast hna
    have hrnb : (0 : ℝ) ≤ (b.num : ℝ) := by exact_mod_cast hnb
    constructor
    · rintro (⟨h, _⟩ | ⟨_, _, h⟩ | ⟨h, _, _⟩)
      · exact absurd hna (not_le.mpr h)
      · have h' : (a.num : ℝ) ^ 2 * (b.den : ℝ) < (b.num : ℝ) ^ 2 * (a.den : ℝ) := by
          exact_mod_cast h
        by_contra hc
        push_neg at hc
        have := mul_self_le_mul_self (by positivity) hc
        nlinarith
      · exact absurd hna (not_le.mpr h)
    · intro h
      refine Or.inr (Or.inl ⟨hna, hnb, ?_⟩)
      have h3 := mul_self_lt_mul_self (by positivity) h
      have h4 : (a.num : ℝ) ^ 2 * (b.den : ℝ) < (b.num : ℝ) ^ 2 * (a.den : ℝ) := by
        nlinarith
      exact_mod_cast h4

theorem sumF_finset (c : Fin 12 → ℚ) : sumF c = ∑ i : Fin 12, c i :=
  (Fin.sum_univ_def c).symm

theorem dotF_finset (x y : Fin 12 → ℚ) : dotF x y = ∑ i : Fin 12, x i * y i :=
  (Fin.sum_univ_def (fun i => x i * y i)).symm

theorem Sim.le_iff_val {a b : Sim} (ha : 0 < a.den) (hb : 0 < b.den) :
    Sim.le a b ↔
      (a.num : ℝ) / Real.sqrt (a.den : ℝ) ≤ (b.num : ℝ) / Real.sqrt (b.den : ℝ) := by
  rw [Sim.le, Sim.lt_iff_val hb ha, not_lt]

/-- The key chroma used in claim C1: the major profile rotated so that the
tonic lies at pitch class `t` (`np.roll(MAJOR_PROFILE, t)`). -/
theorem keyCorrelations_tonic2 :
    keyCorrelations (rollF MAJOR_PROFILE 2) =
      [(0, Mode.major, ⟨95163/10000, 5278722217209/100000000⟩),
       (0, Mode.minor, ⟨-844977/10000, 4413245452497/100000000⟩),
       (1, Mode.major, ⟨-239649/10000, 5278722217209/100000000⟩),
       (1, Mode.minor, ⟨1364763/10000, 4413245452497/100000000⟩),
       (2, Mode.major, ⟨-427701/10000, 5278722217209/100000000⟩),
       (2, Mode.minor, ⟨-1070541/10000, 4413245452497/100000000⟩),
       (3, Mode.major, ⟨1357791/10000, 5278722217209/100000000⟩),
       (3, Mode.minor, ⟨510903/10000, 4413245452497/100000000⟩),
       (4, Mode.major, ⟨-1568817/10000, 5278722217209/100000000⟩),
       (4, Mode.minor, ⟨-778461/10000, 4413245452497/100000000⟩),
       (5, Mode.major, ⟨1357791/10000, 5278722217209/100000000⟩),
       (5, Mode.minor, ⟨449403/10000, 4413245452497/100000000⟩),
       (6, Mode.major, ⟨-427701/10000, 5278722217209/100000000⟩),
       (6, Mode.minor, ⟨1126143/10000, 4413245452497/100000000⟩),
       (7, Mode.major, ⟨-239649/10000, 5278722217209/100000000⟩),
       (7, Mode.minor, ⟨-1372329/10000, 4413245452497/100000000⟩),
       (8, Mode.major, ⟨95163/10000, 5278722217209/100000000⟩),
       (8, Mode.minor, ⟨498759/10000, 4413245452497/100000000⟩),
       (9, Mode.major, ⟨-1149969/10000, 5278722217209/100000000⟩),
       (9, Mode.minor, ⟨-630897/10000, 4413245452497/100000000⟩),
       (10, Mode.major, ⟨2297547/10000, 5278722217209/100000000⟩),
       (10, Mode.minor, ⟨8607/80, 4413245452497/100000000⟩),
       (11, Mode.major, ⟨-1149969/10000, 5278722217209/100000000⟩),
       (11, Mode.minor, ⟨-328641/10000, 4413245452497/100000000⟩)] := by
  with_unfolding_all rfl

/-- The correlations of the unrotated major profile itself (tonic C). -/
theorem keyCorrelations_tonic0 :
    keyCorrelations (rollF MAJOR_PROFILE 0) =
      [(0, Mode.major, ⟨2297547/10000, 5278722217209/100000000⟩),
       (0, Mode.minor, ⟨8607/80, 4413245452497/100000000⟩),
       (1, Mode.major, ⟨-1149969/10000, 5278722217209/100000000⟩),
       (1, Mode.minor, ⟨-328641/10000, 4413245452497/100000000⟩),
       (2, Mode.major, ⟨95163/10000, 5278722217209/100000000⟩),
       (2, Mode.minor, ⟨-844977/10000, 4413245452497/100000000⟩),
       (3, Mode.major, ⟨-239649/10000, 5278722217209/100000000⟩),
       (3, Mode.minor, ⟨1364763/10000, 4413245452497/100000000⟩),
       (4, Mode.major, ⟨-427701/10000, 5278722217209/100000000⟩),
       (4, Mode.minor, ⟨-1070541/10000, 4413245452497/100000000⟩),
       (5, Mode.major, ⟨1357791/10000, 5278722217209/100000000⟩),
       (5, Mode.minor, ⟨510903/10000, 4413245452497/100000000⟩),
       (6, Mode.major, ⟨-1568817/10000, 5278722217209/100000000⟩),
       (6, Mode.minor, ⟨-778461/10000, 4413245452497/100000000⟩),
       (7, Mode.major, ⟨1357791/10000, 5278722217209/100000000⟩),
       (7, Mode.minor, ⟨449403/10000, 4413245452497/100000000⟩),
       (8, Mode.major, ⟨-427701/10000, 5278722217209/100000000⟩),
       (8, Mode.minor, ⟨1126143/10000, 4413245452497/100000000⟩),
       (9, Mode.major, ⟨-239649/10000, 5278722217209/100000000⟩),
       (9, Mode.minor, ⟨-1372329/10000, 4413245452497/100000000⟩),
       (10, Mode.major, ⟨95163/10000, 5278722217209/100000000⟩),
       (10, Mode.minor, ⟨498759/10000, 4413245452497/100000000⟩),
       (11, Mode.major, ⟨-1149969/10000, 5278722217209/100000000⟩),
       (11, Mode.minor, ⟨-630897/10000, 4413245452497/100000000⟩)] := by
  with_unfolding_all rfl

/-- C1: FALSIFIED ON THE CODE (code bug).  On the chroma vector equal to the
major profile rotated so the tonic lies at pitch class 2 (D),
`detect_key_krumhansl` returns tonic 10 (A#), not tonic 2, because
`np.roll(chroma_vector, shift)` rotates in the direction opposite to the one
the algorithm needs (aligning index 0 to the candidate tonic rather than the
candidate tonic to index 0).  The returned correlation is exactly 1
(`num² = den`, `num > 0`, so `num/√den = 1`), confirming that the rotated
profile was matched — under the reflected label.  For tonic 0 (the spec's own
test case) the labels coincide and the result is C major with correlation 1,
as the claim states. -/
theorem c1_detectKey_reflects_tonic :
    detectKey (rollF MAJOR_PROFILE 2) =
        (10, Mode.major, ⟨2297547/10000, 5278722217209/100000000⟩)
  ∧ (10 : Fin 12) ≠ 2
  ∧ detectKey (rollF MAJOR_PROFILE 0) =
        (0, Mode.major, ⟨2297547/10000, 5278722217209/100000000⟩)
  ∧ ((2297547/10000 : ℚ) : ℝ) / Real.sqrt ((5278722217209/100000000 : ℚ) : ℝ) = 1 := by
  refine ⟨?_, by decide, ?_, ?_⟩
  · rw [detectKey, keyCorrelations_tonic2]
    norm_num [bestCorr, List.foldl, Sim.lt]
  · rw [detectKey, keyCorrelations_tonic0]
    norm_num [bestCorr, List.foldl, Sim.lt]
  · have h : ((5278722217209/100000000 : ℚ) : ℝ) =
        ((2297547/10000 : ℚ) : ℝ) * ((2297547/10000 : ℚ) : ℝ) := by
      push_cast
      norm_num
    rw [h, Real.sqrt_mul_self (by positivity)]
    rw [div_self (by positivity)]

/-- C5: the smoothing pass of `detect_chord_progression` merges consecutive
equal-label sub-segments: a duplicated label is absorbed (keeping the first
sub-segment's time and confidence), and for a three-entry progression whose
first two entries share a label, the merged output segment starts at the
first entry's time, has the first entry's confidence, and spans up to the
start of the next differing chord — which equals the sum of the two
sub-segment spans. -/
theorem c5_smoothing_merges_equal_labels :
    (∀ (t0 t1 c0 c1 : ℚ) (lab : Fin 12 × ChordType)
       (rest : List ChordEntry) (tEnd : ℚ),
       smoothProgression ((t0, lab, c0) :: (t1, lab, c1) :: rest) tEnd =
         smoothProgression ((t0, lab, c0) :: rest) tEnd)
  ∧ (∀ (t0 t1 t2 c0 c1 c2 tEnd : ℚ) (lab lab2 : Fin 12 × ChordType),
       lab ≠ lab2 →
       smoothProgression [(t0, lab, c0), (t1, lab, c1), (t2, lab2, c2)] tEnd =
           [(t0, t2 - t0, lab, c0), (t2, tEnd - t2, lab2, c2)]
         ∧ t2 - t0 = (t1 - t0) + (t2 - t1)) := by
  constructor
  · intro t0 t1 c0 c1 lab rest tEnd
    simp [smoothProgression, smoothAux]
  · intro t0 t1 t2 c0 c1 c2 tEnd lab lab2 h
    refine ⟨?_, by ring⟩
    simp [smoothProgression, smoothAux, Ne.symm h]

/-- Witness for C5 at a concrete progression. -/
theorem c5_smoothing_merges_equal_labels_witness :
    (((0 : Fin 12), ChordType.major) ≠ ((7 : Fin 12), ChordType.major))
  ∧ smoothProgression
      [(0, ((0 : Fin 12), ChordType.major), 9/10),
       (1/2, ((0 : Fin 12), ChordType.major), 7/10),
       (1, ((7 : Fin 12), ChordType.major), 4/5)] (3/2) =
      [(0, 1 - 0, ((0 : Fin 12), ChordType.major), 9/10),
       (1, 3/2 - 1, ((7 : Fin 12), ChordType.major), 4/5)] := by
  refine ⟨by decide, ?_⟩
  exact (c5_smoothing_merges_equal_labels.2 0 (1/2) 1 (9/10) (7/10) (4/5) (3/2)
    ((0 : Fin 12), ChordType.major) ((7 : Fin 12), ChordType.major) (by decide)).1

/-! ### Quantization lemmas (claim C3) -/

theorem rnd_intCast (k : ℤ) : rnd (k : ℚ) = k := by
  unfold rnd
  simp

theorem abs_rnd_sub_le (x : ℚ) : |(rnd x : ℚ) - x| ≤ 1/2 := by
  unfold rnd
  have h0 : ((⌊x⌋ : ℚ)) ≤ x := Int.floor_le x
  have h1 : x < (⌊x⌋ : ℚ) + 1 := Int.lt_floor_add_one x
  split_ifs with hc1 hc2 hc3 <;> rw [abs_le] <;> push_cast <;> constructor <;> linarith

theorem diffL_of_chain (d : ℚ) :
    ∀ (l : List ℚ), l.Chain' (fun a b => b - a = d) →
      diffL l = List.replicate (l.length - 1) d := by
  intro l
  induction l with
  | nil => intro _; rfl
  | cons a l ih =>
      cases l with
      | nil => intro _; rfl
      | cons b t =>
          intro h
          rw [List.chain'_cons] at h
          have := ih h.2
          simp only [diffL, this, h.1]
          simp [List.replicate]

theorem meanL_replicate (m : ℕ) (d : ℚ) (hm : 1 ≤ m) :
    meanL (List.replicate m d) = d := by
  have hm0 : (m : ℚ) ≠ 0 := by positivity
  simp [meanL, List.sum_replicate, nsmul_eq_mul]
  field_simp

theorem argminAbs_mem (t : ℚ) :
    ∀ (l : List ℚ), l ≠ [] → argminAbs t l ∈ l := by
  intro l
  induction l with
  | nil => intro h; exact absurd rfl h
  | cons b l ih =>
      cases l with
      | nil => intro _; simp [argminAbs]
      | cons c t =>
          intro _
          have hmem := ih (by simp)
          unfold argminAbs
          split_ifs with h
          · exact List.mem_cons_of_mem b hmem
          · exact List.mem_cons_self b _

theorem chain_grid_mem (d : ℚ) :
    ∀ (bs : List ℚ) (b0 : ℚ), (b0 :: bs).Chain' (fun a b => b - a = d) →
      ∀ x ∈ b0 :: bs, ∃ k : ℕ, x = b0 + (k : ℚ) * d := by
  intro bs
  induction bs with
  | nil =>
      intro b0 _ x hx
      simp at hx
      exact ⟨0, by simp [hx]⟩
  | cons b1 bs ih =>
      intro b0 h x hx
      rw [List.chain'_cons] at h
      rcases List.mem_cons.mp hx with hx0 | hx1
      · exact ⟨0, by simp [hx0]⟩
      · obtain ⟨k, hk⟩ := ih b1 h.2 x hx1
        refine ⟨k + 1, ?_⟩
        have hb1 : b1 = b0 + d := by linarith [h.1]
        rw [hk, hb1]
        push_cast
        ring

theorem quantizeToGrid_eq (beats : List ℚ) (subs : ℕ) (time : ℚ)
    (h : ¬ beats.length < 2) :
    quantizeToGrid beats subs time =
      max 0 (argminAbs time beats +
        (rnd ((time - argminAbs time beats) / (meanL (diffL beats) / (subs : ℚ))) : ℚ) *
          (meanL (diffL beats) / (subs : ℚ))) := by
  unfold quantizeToGrid
  rw [if_neg h]

/-- On a uniformly spaced beat grid, every nonnegative grid point is a fixed
point of `quantize_to_grid`. -/
theorem quantize_grid_fixpoint (b0 : ℚ) (bs : List ℚ) (d : ℚ) (subs : ℕ)
    (hd : 0 < d) (hs : 1 ≤ subs)
    (hch : (b0 :: bs).Chain' (fun a b => b - a = d))
    (h2 : 2 ≤ (b0 :: bs).length) :
    ∀ (x : ℚ), 0 ≤ x → (∀ m : ℤ, x = b0 + (m : ℚ) * (d / (subs : ℚ)) →
      quantizeToGrid (b0 :: bs) subs x = x) := by
  intro x hx m hm
  have hsubs : (0 : ℚ) < (subs : ℚ) := by
    have : 0 < subs := by omega
    exact_mod_cast this
  have hsd : (0 : ℚ) < d / (subs : ℚ) := div_pos hd hsubs
  have hlen : ¬ (b0 :: bs).length < 2 := by omega
  rw [quantizeToGrid_eq _ _ _ hlen]
  rw [diffL_of_chain d _ hch, meanL_replicate _ _ (by omega)]
  obtain ⟨k, hk⟩ := chain_grid_mem d bs b0 hch (argminAbs x (b0 :: bs))
    (argminAbs_mem x _ (by simp))
  set sd := d / (subs : ℚ) with hsd_def
  have hdd : d = (subs : ℚ) * sd := by rw [hsd_def]; field_simp
  have hoff : (x - argminAbs x (b0 :: bs)) / sd = ((m - k * subs : ℤ) : ℚ) := by
    rw [hk, hm, hdd]
    push_cast
    field_simp
    ring
  rw [hoff, rnd_intCast]
  have : argminAbs x (b0 :: bs) + ((m - k * subs : ℤ) : ℚ) * sd = x := by
    rw [hk, hm, hdd]

    push_cast
    ring
  rw [this, max_eq_right hx]

/-- The raw (unclamped) value computed by `quantize_to_grid` on a uniform
grid is a grid point within half a subdivision of the input. -/
theorem quantize_raw_spec (b0 : ℚ) (bs : List ℚ) (d : ℚ) (subs : ℕ)
    (hd : 0 < d) (hs : 1 ≤ subs)
    (hch : (b0 :: bs).Chain' (fun a b => b - a = d))
    (h2 : 2 ≤ (b0 :: bs).length) (t : ℚ) :
    ∃ M : ℤ,
      quantizeToGrid (b0 :: bs) subs t = max 0 (b0 + (M : ℚ) * (d / (subs : ℚ)))
      ∧ |b0 + (M : ℚ) * (d / (subs : ℚ)) - t| ≤ (d / (subs : ℚ)) / 2 := by
  have hsubs : (0 : ℚ) < (subs : ℚ) := by
    have : 0 < subs := by omega
    exact_mod_cast this
  have hsd : (0 : ℚ) < d / (subs : ℚ) := div_pos hd hsubs
  have hlen : ¬ (b0 :: bs).length < 2 := by omega
  obtain ⟨k, hk⟩ := chain_grid_mem d bs b0 hch (argminAbs t (b0 :: bs))
    (argminAbs_mem t _ (by simp))
  set sd := d / (subs : ℚ) with hsd_def
  have hdd : d = (subs : ℚ) * sd := by rw [hsd_def]; field_simp
  refine ⟨(k * subs : ℤ) + rnd ((t - argminAbs t (b0 :: bs)) / sd), ?_, ?_⟩
  · rw [quantizeToGrid_eq _ _ _ hlen]
    rw [diffL_of_chain d _ hch,
      meanL_replicate _ _ (by omega)]
    rw [← hsd_def, hk, hdd]
    push_cast
    ring_nf
  · have hy : ((rnd ((t - argminAbs t (b0 :: bs)) / sd) : ℚ) -
        (t - argminAbs t (b0 :: bs)) / sd) * sd =
        b0 + (((k * subs : ℤ) + rnd ((t - argminAbs t (b0 :: bs)) / sd) : ℤ) : ℚ) * sd - t := by
      rw [hk, hdd]
      push_cast
      field_simp
      ring
    have habs := abs_rnd_sub_le ((t - argminAbs t (b0 :: bs)) / sd)
    have := abs_mul ((rnd ((t - argminAbs t (b0 :: bs)) / sd) : ℚ) -
        (t - argminAbs t (b0 :: bs)) / sd) sd
    rw [hy] at this
    rw [this, abs_of_pos hsd]
    calc |(rnd ((t - argminAbs t (b0 :: bs)) / sd) : ℚ) -
            (t - argminAbs t (b0 :: bs)) / sd| * sd
        ≤ (1/2) * sd := by
          exact mul_le_mul_of_nonneg_right habs hsd.le
      _ = sd / 2 := by ring

/-- On a uniformly spaced beat grid, `quantize_to_grid` is idempotent on
nonnegative inputs. -/
theorem quantize_idem_pointwise (b0 : ℚ) (bs : List ℚ) (d : ℚ) (subs : ℕ)
    (hd : 0 < d) (hs : 1 ≤ subs)
    (hch : (b0 :: bs).Chain' (fun a b => b - a = d)) :
    ∀ (t : ℚ), 0 ≤ t →
      quantizeToGrid (b0 :: bs) subs (quantizeToGrid (b0 :: bs) subs t) =
        quantizeToGrid (b0 :: bs) subs t := by
  intro t ht
  by_cases hlen : (b0 :: bs).length < 2
  · have hid : ∀ u, quantizeToGrid (b0 :: bs) subs u = u := by
      intro u; unfold quantizeToGrid; rw [if_pos hlen]
    rw [hid, hid]
  · have h2 : 2 ≤ (b0 :: bs).length := by omega
    have hsubs : (0 : ℚ) < (subs : ℚ) := by
      have : 0 < subs := by omega
      exact_mod_cast this
    have hsd : (0 : ℚ) < d / (subs : ℚ) := div_pos hd hsubs
    obtain ⟨M, hQ, hMt⟩ := quantize_raw_spec b0 bs d subs hd hs hch h2 t
    rcases lt_or_le 0 (b0 + (M : ℚ) * (d / (subs : ℚ))) with hpos | hnp
    · rw [hQ, max_eq_right hpos.le]
      exact quantize_grid_fixpoint b0 bs d subs hd hs hch h2 _ hpos.le M rfl
    · rw [hQ, max_eq_left hnp]
      obtain ⟨M0, hQ0, hM0⟩ := quantize_raw_spec b0 bs d subs hd hs hch h2 0
      rcases le_or_lt (b0 + (M0 : ℚ) * (d / (subs : ℚ))) 0 with h0np | h0pos
      · rw [hQ0, max_eq_left h0np]
      · exfalso
        have hsep : (1 : ℚ) ≤ ((M0 - M : ℤ) : ℚ) := by
          have hlt : (M : ℚ) * (d / (subs : ℚ)) < (M0 : ℚ) * (d / (subs : ℚ)) := by
            linarith
          have : (M : ℚ) < (M0 : ℚ) := lt_of_mul_lt_mul_right hlt hsd.le
          have hMM : M < M0 := by exact_mod_cast this
          have : (1 : ℤ) ≤ M0 - M := by omega
          exact_mod_cast this
        have hsep2 : d / (subs : ℚ) ≤
            (b0 + (M0 : ℚ) * (d / (subs : ℚ))) - (b0 + (M : ℚ) * (d / (subs : ℚ))) := by
          have : ((M0 - M : ℤ) : ℚ) * (d / (subs : ℚ)) =
              (b0 + (M0 : ℚ) * (d / (subs : ℚ))) - (b0 + (M : ℚ) * (d / (subs : ℚ))) := by
            push_cast
            ring
          rw [← this]
          nlinarith
        have hq0small : b0 + (M0 : ℚ) * (d / (subs : ℚ)) ≤ (d / (subs : ℚ)) / 2 := by
          have := abs_le.mp hM0
          linarith [this.2]
        have hqlow : b0 + (M : ℚ) * (d / (subs : ℚ)) ≤ -((d / (subs : ℚ)) / 2) := by
          linarith
        have ht0 : t = 0 := by
          have := abs_le.mp hMt
          have h1 : t - (b0 + (M : ℚ) * (d / (subs : ℚ))) ≤ (d / (subs : ℚ)) / 2 := by
            linarith [this.1]
          linarith
        rw [ht0] at hQ
        rw [hQ0, max_eq_right h0pos.le] at hQ
        rw [max_eq_left hnp] at hQ
        linarith [hQ ▸ h0pos]

/-- C3 counterexample: against the non-uniform beat grid `[0, 1, 3]` (with
the default 4 subdivisions) the note `(1.95, 0.1)` quantizes to
`(17/8, -1/4)`, and quantizing that already-quantized sequence again gives
`(9/4, -1/2)` — not the same sequence.  So quantization is not idempotent as
claimed: the subdivision grid is anchored at the nearest beat, and with
unevenly spaced beats a quantized time can fall nearest to a different beat
whose subdivision grid does not contain it. -/
theorem c3_quantize_idempotent_counterexample :
    quantizeNotes [0, 1, 3] 4 [(39/20, 1/10)] = [(17/8, -1/4)]
  ∧ quantizeNotes [0, 1, 3] 4 (quantizeNotes [0, 1, 3] 4 [(39/20, 1/10)]) =
      [(9/4, -1/2)]
  ∧ quantizeNotes [0, 1, 3] 4 (quantizeNotes [0, 1, 3] 4 [(39/20, 1/10)]) ≠
      quantizeNotes [0, 1, 3] 4 [(39/20, 1/10)] :=
  of_decide_eq_true (by with_unfolding_all rfl)

/-- C3 (amended): quantization is idempotent when the beat-time sequence is
uniformly spaced: for every beat grid with at least two beats, consecutive
beats a constant `d > 0` apart, a subdivision count `subs ≥ 1`, and every
note list whose start and end times are nonnegative, quantizing the
quantized sequence yields the same sequence.  (The counterexample above
shows the uniform-spacing restriction is necessary.) -/
theorem c3_quantize_idempotent_uniform (b0 : ℚ) (bs : List ℚ) (d : ℚ)
    (subs : ℕ) (notes : List (ℚ × ℚ))
    (hd : 0 < d) (hs : 1 ≤ subs)
    (hch : (b0 :: bs).Chain' (fun a b => b - a = d))
    (hn : ∀ p ∈ notes, 0 ≤ p.1 ∧ 0 ≤ p.1 + p.2) :
    quantizeNotes (b0 :: bs) subs (quantizeNotes (b0 :: bs) subs notes) =
      quantizeNotes (b0 :: bs) subs notes := by
  unfold quantizeNotes
  rw [List.map_map]
  apply List.map_congr_left
  intro p hp
  obtain ⟨hp1, hp2⟩ := hn p hp
  have hs1 : quantizeToGrid (b0 :: bs) subs (quantizeToGrid (b0 :: bs) subs p.1) =
      quantizeToGrid (b0 :: bs) subs p.1 :=
    quantize_idem_pointwise b0 bs d subs hd hs hch p.1 hp1
  have hs2 : quantizeToGrid (b0 :: bs) subs (quantizeToGrid (b0 :: bs) subs (p.1 + p.2)) =
      quantizeToGrid (b0 :: bs) subs (p.1 + p.2) :=
    quantize_idem_pointwise b0 bs d subs hd hs hch (p.1 + p.2) hp2
  simp only [Function.comp]
  have harg : quantizeToGrid (b0 :: bs) subs p.1 +
      (quantizeToGrid (b0 :: bs) subs (p.1 + p.2) - quantizeToGrid (b0 :: bs) subs p.1) =
      quantizeToGrid (b0 :: bs) subs (p.1 + p.2) := by ring
  rw [harg, hs1, hs2]

/-- Witness for the amended C3 at a concrete uniform grid and note list. -/
theorem c3_quantize_idempotent_uniform_witness :
    (0 : ℚ) < 1/2 ∧ 1 ≤ 4 ∧
      ([(0 : ℚ), 1/2, 1].Chain' (fun a b => b - a = (1/2 : ℚ)))
  ∧ quantizeNotes [0, 1/2, 1] 4 (quantizeNotes [0, 1/2, 1] 4 [(1/3, 1/5)]) =
      quantizeNotes [0, 1/2, 1] 4 [(1/3, 1/5)] := by
  have hch : ([(0 : ℚ), 1/2, 1].Chain' (fun a b => b - a = (1/2 : ℚ))) := by
    norm_num [List.chain'_cons, List.chain'_singleton]
  refine ⟨by norm_num, by norm_num, hch, ?_⟩
  exact c3_quantize_idempotent_uniform 0 [1/2, 1] (1/2) 4 [(1/3, 1/5)]
    (by norm_num) (by norm_num) hch
    (by intro p hp; simp at hp; subst hp; norm_num)

/-! ### Monophonic-tracker close behavior (claims C2, C7) -/

/-- C2 counterexample: frames at times 0, 1, 2, 3 (`Δ = 1`), with pitch 60
voiced on frames 0 and 1 and frames 2, 3 unvoiced.  The note closes at
frame `i = 2`; the claim calls for duration `times[2] - 0 = 2`, but the code
computes `times[i-1] - note_start = times[1] - 0 = 1`. -/
theorem c2_close_duration_counterexample :
    trackNotes 1 (1/20) [(some 60, 1), (some 60, 1), (none, 0), (none, 0)] =
      [(0, 1, 60)]
  ∧ ((1 : ℚ) ≠ ((2 : ℕ) : ℚ) * 1 - 0) :=
  of_decide_eq_true (by with_unfolding_all rfl)

/-- C2 (amended): when the active note (pitch `c`, start `s`) is closed at
frame `i` because frame `i` does not continue it, the emitted note's
duration is `times[i-1] - s` — the time of the LAST MATCHING frame, not of
the frame following it — and the note is appended iff that duration is at
least `min_note_duration` (otherwise it is discarded). -/
theorem c2_close_duration_amended (dlt minDur : ℚ) (st : MState) (i : ℕ)
    (pitch : Option ℤ) (conf : ℚ) (c : ℤ) (s : ℚ)
    (hc : st.cur = some c) (hs : st.start = some s)
    (hstop : pitch = none ∨ ∃ q : ℤ, pitch = some q ∧ ¬ |q - c| ≤ 1) :
    (trackStep dlt minDur st (i, pitch, conf)).notes =
      st.notes ++
        (if minDur ≤ ((i - 1 : ℕ) : ℚ) * dlt - s
         then [(s, ((i - 1 : ℕ) : ℚ) * dlt - s, closePitch c st.confs)]
         else []) := by
  obtain ⟨cur, start, confs, notes⟩ := st
  simp only at hc hs
  subst hc hs
  have hcond : pitch ≠ some c ∧ contOk (some c) pitch = false := by
    rcases hstop with h | ⟨q, hq, hql⟩
    · subst h
      exact ⟨by simp, rfl⟩
    · subst hq
      constructor
      · intro hqc
        apply hql
        simp at hqc
        rw [hqc]
        simp
      · simp [contOk]
        exact not_le.mp hql
  rw [trackStep]
  simp only
  rw [if_pos ⟨hcond.1, hcond.2⟩]
  simp only
  split_ifs with hdur
  · rfl
  · simp

/-- Witness for the amended C2: closing the note `(60, start 0)` at frame 2
with `Δ = 1`, minimum duration 1/20, emits duration `times[1] - 0 = 1`. -/
theorem c2_close_duration_amended_witness :
    (trackStep 1 (1/20) ⟨some 60, some 0, [(60, 1)], []⟩ (2, none, 0)).notes =
      [(0, 1, 60)] := by
  rw [c2_close_duration_amended 1 (1/20) ⟨some 60, some 0, [(60, 1)], []⟩ 2
    none 0 60 0 rfl rfl (Or.inl rfl)]
  exact of_decide_eq_true (by with_unfolding_all rfl)

theorem cumsum_go_shift (acc : ℚ) :
    ∀ (l : List ℚ), cumsum.go acc l = (cumsum.go 0 l).map (fun y => acc + y) := by
  intro l
  induction l generalizing acc with
  | nil => simp [cumsum.go]
  | cons x xs ih =>
      simp only [cumsum.go, List.map_cons, List.cons.injEq]
      refine ⟨by ring, ?_⟩
      rw [ih (acc + x), ih (0 + x), List.map_map]
      apply List.map_congr_left
      intro y _
      simp only [Function.comp]
      ring

theorem cumsum_getLastD :
    ∀ (l : List ℚ) (acc : ℚ), (cumsum.go acc l).getLastD acc = acc + l.sum := by
  intro l
  induction l with
  | nil => intro acc; simp [cumsum.go]
  | cons x xs ih =>
      intro acc
      simp only [cumsum.go, List.getLastD_cons]
      rw [ih (acc + x)]
      simp
      ring

theorem findIdx_map {α β : Type} (p : β → Bool) (f : α → β) :
    ∀ (l : List α), (l.map f).findIdx p = l.findIdx (fun x => p (f x)) := by
  intro l
  induction l with
  | nil => rfl
  | cons x xs ih =>
      simp only [List.map_cons, List.findIdx_cons, ih]

theorem findIdx_congr {α : Type} (p q : α → Bool) (h : ∀ x, p x = q x) :
    ∀ (l : List α), l.findIdx p = l.findIdx q := by
  intro l
  induction l with
  | nil => rfl
  | cons x xs ih =>
      simp only [List.findIdx_cons, h x, ih]

theorem wmGo_shift :
    ∀ (l : List (ℤ × ℚ)) (half a : ℚ), wmGo half a l = wmGo (half - a) 0 l := by
  intro l
  induction l with
  | nil => intro half a; rfl
  | cons x xs ih =>
      intro half a
      obtain ⟨p, c⟩ := x
      simp only [wmGo]
      by_cases h : half ≤ a + c
      · rw [if_pos h, if_pos (show half - a ≤ 0 + c by linarith)]
      · rw [if_neg h, if_neg (show ¬ half - a ≤ 0 + c by intro hcon; exact h (by linarith))]
        rw [ih half (a + c), ih (half - a) (0 + c)]
        have : half - (a + c) = half - a - (0 + c) := by ring
        rw [this]

/-- Core equivalence: on any (pitch, confidence) list whose confidences sum
to at least `half`, the `cumsum`/`searchsorted` selection of the source
equals the running-cumulative-weight walk of the spec. -/
theorem close_selection_eq_wmGo :
    ∀ (l : List (ℤ × ℚ)) (cur : ℤ) (half : ℚ),
      l ≠ [] → half ≤ (l.map (fun x => x.2)).sum →
      (l.getD
        ((cumsum (l.map (fun x => x.2))).findIdx (fun x => decide (half ≤ x)))
        (cur, 0)).1 = wmGo half 0 l := by
  intro l
  induction l with
  | nil => intro cur half h _; exact absurd rfl h
  | cons x xs ih =>
      intro cur half _ hsum
      obtain ⟨p, c⟩ := x
      simp only [List.map_cons] at hsum ⊢
      show ((((p, c) :: xs).getD
        ((cumsum.go 0 (c :: xs.map (fun x => x.2))).findIdx (fun x => decide (half ≤ x)))
        (cur, 0)).1) = wmGo half 0 ((p, c) :: xs)
      simp only [cumsum.go, List.findIdx_cons]
      by_cases hc : half ≤ 0 + c
      · simp only [decide_eq_true hc, cond_true, List.getD_cons_zero, wmGo]
        rw [if_pos hc]
      · have hc' : decide (half ≤ 0 + c) = false := decide_eq_false hc
        rw [hc']
        simp only [cond_false]
        have hxs : xs ≠ [] := by
          intro hnil
          subst hnil
          simp at hsum
          exact hc (by linarith)
        have hshift : (cumsum.go (0 + c) (xs.map (fun x => x.2))).findIdx
            (fun x => decide (half ≤ x)) =
            (cumsum.go 0 (xs.map (fun x => x.2))).findIdx
              (fun x => decide (half - c ≤ x)) := by
          rw [cumsum_go_shift (0 + c) (xs.map (fun x => x.2))]
          rw [findIdx_map]
          apply findIdx_congr
          intro y
          exact decide_eq_decide.mpr (by constructor <;> intro <;> linarith)
        rw [hshift]
        simp only [List.getD_cons_succ]
        rw [show wmGo half 0 ((p, c) :: xs) = wmGo half (0 + c) xs from by
          simp only [wmGo]; rw [if_neg hc]]
        rw [wmGo_shift xs half (0 + c)]
        have harg : half - (0 + c) = half - c := by ring
        rw [harg]
        exact ih cur (half - c) hxs (by simp at hsum ⊢; linarith)

/-- C7: the in-loop close of `detect_midi_notes_advanced` computes exactly
the confidence-weighted median the spec describes (first conjunct, for any
nonempty accumulator with nonnegative confidences), and on frames
(60, conf 1), (61, conf 10) followed by an unvoiced frame the tracker emits
pitch 61 — the weighted median, not the initial pitch and not a mean.
HOWEVER the claim is falsified by the END-OF-INPUT close (lines 201-211 of
`pitch_detect_advanced.py`): on the same two voiced frames with no
unvoiced frame after them, the note is emitted with `current_note = 60`,
the note's initial pitch, although the weighted median of the accumulated
pairs is 61. -/
theorem c7_close_uses_weighted_median :
    (∀ (pairs : List (ℤ × ℚ)) (c : ℤ),
        pairs ≠ [] → (∀ x ∈ pairs, 0 ≤ x.2) →
        closePitch c pairs = wmedianSpec pairs)
  ∧ trackNotes 1 (1/20) [(some 60, 1), (some 61, 10), (none, 0)] = [(0, 1, 61)]
  ∧ trackNotes 1 (1/20) [(some 60, 1), (some 61, 10)] = [(0, 1, 60)]
  ∧ wmedianSpec [(60, 1), (61, 10)] = 61
  ∧ (60 : ℤ) ≠ 61 := by
  refine ⟨?_, ?_, ?_, ?_, by decide⟩
  · intro pairs c hne hnn
    have hperm := List.perm_insertionSort (fun a b : ℤ × ℚ => a.1 ≤ b.1) pairs
    have hne2 : pairs.insertionSort (fun a b => a.1 ≤ b.1) ≠ [] := by
      intro hnil
      apply hne
      have := hperm.length_eq
      rw [hnil] at this
      exact List.length_eq_zero.mp this.symm
    have hempty : ¬ (pairs.isEmpty = true) := by
      simp only [List.isEmpty_iff]
      exact hne
    have hsum0 : 0 ≤ ((pairs.insertionSort (fun a b => a.1 ≤ b.1)).map
        (fun x => x.2)).sum := by
      apply List.sum_nonneg
      intro y hy
      obtain ⟨x, hx, hxy⟩ := List.mem_map.mp hy
      rw [← hxy]
      exact hnn x (hperm.mem_iff.mp hx)
    simp only [closePitch, wmedianSpec]
    rw [if_neg hempty]
    simp only [cumsum] at *
    simp only [cumsum_getLastD, zero_add]
    exact close_selection_eq_wmGo _ c _ hne2 (by linarith)
  · exact of_decide_eq_true (by with_unfolding_all rfl)
  · exact of_decide_eq_true (by with_unfolding_all rfl)
  · exact of_decide_eq_true (by with_unfolding_all rfl)

/-- Witness for the universally quantified conjunct of C7. -/
theorem c7_close_uses_weighted_median_witness :
    closePitch 99 [(60, 1), (61, 10)] = wmedianSpec [(60, 1), (61, 10)]
  ∧ closePitch 99 [(60, 1), (61, 10)] = 61 := by
  constructor
  · exact c7_close_uses_weighted_median.1 [(60, 1), (61, 10)] 99 (by simp)
      (by
        intro x hx
        simp only [List.mem_cons, List.not_mem_nil, or_false] at hx
        rcases hx with h | h <;> subst h <;> norm_num)
  · exact of_decide_eq_true (by with_unfolding_all rfl)

/-! ### Overlap removal (claim C6) -/

theorem removeOverlaps_head1 (a : ℚ × ℚ × ℤ) (l : List (ℚ × ℚ × ℤ)) :
    ∃ a' l', removeOverlaps (a :: l) = a' :: l' ∧ a'.1 = a.1 := by
  cases l with
  | nil => exact ⟨a, [], rfl, rfl⟩
  | cons b t =>
      refine ⟨if b.1 < a.1 + a.2.1 then (a.1, b.1 - a.1, a.2.2) else a,
        removeOverlaps (b :: t), rfl, ?_⟩
      split_ifs <;> rfl

theorem removeOverlaps_chain :
    ∀ (l : List (ℚ × ℚ × ℤ)), l.Sorted (fun a b => a.1 ≤ b.1) →
      (removeOverlaps l).Chain' (fun a b => a.1 ≤ b.1 ∧ a.1 + a.2.1 ≤ b.1) := by
  intro l
  induction l with
  | nil => intro _; simp [removeOverlaps]
  | cons a l ih =>
      cases l with
      | nil => intro _; simp [removeOverlaps]
      | cons b t =>
          intro hsort
          rw [List.sorted_cons] at hsort
          have hab : a.1 ≤ b.1 := hsort.1 b (by simp)
          have htail := ih hsort.2
          show List.Chain' _
            ((if b.1 < a.1 + a.2.1 then (a.1, b.1 - a.1, a.2.2) else a)
              :: removeOverlaps (b :: t))
          obtain ⟨b', t', hbt, hb1⟩ := removeOverlaps_head1 b t
          rw [List.chain'_cons']
          constructor
          · intro y hy
            rw [hbt] at hy
            simp at hy
            subst hy
            split_ifs with hov
            · exact ⟨by simpa [hb1] using hab, by simp [hb1]⟩
            · exact ⟨by simpa [hb1] using hab, by rw [hb1]; linarith [not_lt.mp hov]⟩
          · exact htail

/-- C6: the monophonic tracker's output is ordered by start time and
temporally exclusive: every pair of consecutive returned notes satisfies
`start₁ ≤ start₂` and `start₁ + duration₁ ≤ start₂` (the overlap-removal
pass trims the earlier note's end to the later note's start).  Stated both
for the full tracker and for the sort-then-trim pass applied to an
arbitrary note list. -/
theorem c6_tracker_output_exclusive :
    (∀ (dlt magTh silTh minDur : ℚ) (h2m : ℚ → ℤ) (frames : List AFrame),
       (trackerRun dlt magTh silTh minDur h2m frames).Chain'
         (fun a b => a.1 ≤ b.1 ∧ a.1 + a.2.1 ≤ b.1))
  ∧ (∀ notes : List (ℚ × ℚ × ℤ),
       (removeOverlaps (sortNotes notes)).Chain'
         (fun a b => a.1 ≤ b.1 ∧ a.1 + a.2.1 ≤ b.1)) := by
  have key : ∀ notes : List (ℚ × ℚ × ℤ),
      (removeOverlaps (sortNotes notes)).Chain'
        (fun a b => a.1 ≤ b.1 ∧ a.1 + a.2.1 ≤ b.1) := by
    intro notes
    apply removeOverlaps_chain
    exact List.sorted_insertionSort _ _
  exact ⟨fun dlt magTh silTh minDur h2m frames => key _, key⟩

/-! ### Silent input (claim C8) -/

theorem framePitch_unvoiced (magTh silTh : ℚ) (h2m : ℚ → ℤ) (fr : AFrame)
    (h : fr.rms < silTh ∨ maxQ fr.mags < magTh) :
    framePitch magTh silTh h2m fr = (none, 0) := by
  unfold framePitch
  rcases h with h | h
  · rw [if_pos h]
  · by_cases h1 : fr.rms < silTh
    · rw [if_pos h1]
    · rw [if_neg h1, if_pos h]

theorem trackStep_unvoiced (dlt minDur : ℚ) (i : ℕ) (conf : ℚ) :
    trackStep dlt minDur ⟨none, none, [], []⟩ (i, none, conf) =
      ⟨none, none, [], []⟩ := by
  simp [trackStep, contOk]

theorem trackFold_unvoiced (dlt minDur : ℚ) :
    ∀ (l : List (Option ℤ × ℚ)) (n : ℕ), (∀ y ∈ l, y.1 = none) →
      (List.enumFrom n l).foldl (trackStep dlt minDur) ⟨none, none, [], []⟩ =
        ⟨none, none, [], []⟩ := by
  intro l
  induction l with
  | nil => intro n _; rfl
  | cons x xs ih =>
      intro n hall
      rw [List.enumFrom_cons]
      have hx : x.1 = none := hall x (by simp)
      obtain ⟨p, cf⟩ := x
      simp only at hx
      subst hx
      rw [List.foldl_cons, trackStep_unvoiced]
      exact ih (n + 1) (fun y hy => hall y (by simp [hy]))

theorem trackNotes_unvoiced (dlt minDur : ℚ) (frames : List (Option ℤ × ℚ))
    (h : ∀ y ∈ frames, y.1 = none) : trackNotes dlt minDur frames = [] := by
  unfold trackNotes
  rw [show frames.enum = List.enumFrom 0 frames from rfl]
  rw [trackFold_unvoiced dlt minDur frames 0 h]

theorem maxQ_zero (col : List ℚ) (h : ∀ x ∈ col, x = 0) : maxQ col = 0 := by
  induction col with
  | nil => rfl
  | cons x xs ih =>
      show max x (maxQ xs) = 0
      rw [h x (by simp), ih (fun y hy => h y (by simp [hy]))]
      simp

theorem normalizeCol_zero (col : List ℚ) (h : ∀ x ∈ col, x = 0) :
    ∀ y ∈ normalizeCol col, y = 0 := by
  intro y hy
  unfold normalizeCol at hy
  obtain ⟨x, hx, hxy⟩ := List.mem_map.mp hy
  rw [← hxy, h x hx]
  simp

theorem getD_zero_of_all_zero (col : List ℚ) (h : ∀ x ∈ col, x = 0) (j : ℕ) :
    col.getD j 0 = 0 := by
  rcases lt_or_le j col.length with hj | hj
  · rw [List.getD_eq_getElem col 0 hj]
    exact h _ (List.getElem_mem hj)
  · exact List.getD_eq_default col 0 (by omega)

theorem peakIdx_zero (th : ℚ) (col : List ℚ) (h : ∀ x ∈ col, x = 0) :
    peakIdx th col = [] := by
  unfold peakIdx
  rw [List.filter_eq_nil_iff]
  intro i _
  simp only [Bool.and_eq_true, decide_eq_true_eq, not_and]
  intro hconj hth
  have hlt := hconj.1.2
  have h1 := getD_zero_of_all_zero col h (i - 1)
  have h2 := getD_zero_of_all_zero col h i
  rw [h1, h2] at hlt
  exact absurd hlt (lt_irrefl 0)

theorem selectPitches_zero (maxPoly : ℕ) (th : ℚ) (col : List ℚ)
    (h : ∀ x ∈ col, x = 0) : selectPitches maxPoly th col = [] := by
  unfold selectPitches
  rw [peakIdx_zero th col h]
  simp [sortByHeightDesc, pruneGo]

theorem polyStep_empty (dlt minDur : ℚ) (normSal : ℕ → ℕ → ℚ) (f : ℕ) :
    polyStep dlt minDur normSal ([], []) f [] = ([], []) := by
  simp [polyStep]

theorem polyRun_empty (dlt minDur : ℚ) (normSal : ℕ → ℕ → ℚ) :
    ∀ (currents : List (List ℕ)) (f : ℕ), (∀ cu ∈ currents, cu = []) →
      polyRun dlt minDur normSal f ([], []) currents = ([], []) := by
  intro currents
  induction currents with
  | nil => intro f _; rfl
  | cons cu rest ih =>
      intro f hall
      have hcu : cu = [] := hall cu (by simp)
      subst hcu
      show polyRun dlt minDur normSal (f + 1)
        (polyStep dlt minDur normSal ([], []) f []) rest = ([], [])
      rw [polyStep_empty]
      exact ih (f + 1) (fun y hy => hall y (by simp [hy]))

/-- C8: on all-silent input both trackers return an empty note list.  For
the monophonic tracker, "silent" means every frame's RMS is below the
silence threshold or its maximum magnitude is below the magnitude
threshold; for the polyphonic tracker it means the salience surface is all
zero (so no frame has any peak). -/
theorem c8_silent_input_no_notes :
    (∀ (dlt magTh silTh minDur : ℚ) (h2m : ℚ → ℤ) (frames : List AFrame),
       (∀ fr ∈ frames, fr.rms < silTh ∨ maxQ fr.mags < magTh) →
       trackerRun dlt magTh silTh minDur h2m frames = [])
  ∧ (∀ (dlt minDur th : ℚ) (maxPoly : ℕ) (sal : List (List ℚ)),
       (∀ col ∈ sal, ∀ x ∈ col, x = 0) →
       detectPolyNotes dlt minDur th maxPoly sal = []) := by
  constructor
  · intro dlt magTh silTh minDur h2m frames h
    unfold trackerRun
    rw [trackNotes_unvoiced dlt minDur _ ?_]
    · rfl
    · intro y hy
      obtain ⟨fr, hfr, hfry⟩ := List.mem_map.mp hy
      rw [← hfry, framePitch_unvoiced magTh silTh h2m fr (h fr hfr)]
  · intro dlt minDur th maxPoly sal h
    simp only [detectPolyNotes]
    rw [polyRun_empty _ _ _ _ 0 ?_]
    · rfl
    · intro cu hcu
      obtain ⟨col, hcol, hcolcu⟩ := List.mem_map.mp hcu
      obtain ⟨col0, hcol0, hcol0n⟩ := List.mem_map.mp hcol
      rw [← hcolcu, ← hcol0n]
      exact selectPitches_zero maxPoly th _
        (normalizeCol_zero col0 (h col0 hcol0))

/-- Witness for C8 at a concrete silent monophonic frame list and a
concrete all-zero salience surface. -/
theorem c8_silent_input_no_notes_witness :
    trackerRun 1 (1/10) (1/50) (1/20) (fun _ => 60) [⟨0, [0, 0], [100, 200]⟩] = []
  ∧ detectPolyNotes 1 (1/20) (3/10) 6 [[0, 0, 0], [0, 0, 0]] = [] := by
  constructor
  · apply c8_silent_input_no_notes.1
    intro fr hfr
    simp only [List.mem_cons, List.not_mem_nil, or_false] at hfr
    subst hfr
    left
    norm_num
  · apply c8_silent_input_no_notes.2
    intro col hcol x hx
    simp only [List.mem_cons, List.not_mem_nil, or_false] at hcol
    rcases hcol with h | h <;> subst h <;>
      simp only [List.mem_cons, List.not_mem_nil, or_false] at hx <;>
      rcases hx with h | h | h <;> exact h

/-! ### Chord detection lemmas (claims C4, C10) -/

theorem dotF_rot_self (c : Fin 12 → ℚ) (s : Fin 12) :
    dotF (rollF c s) (rollF c s) = dotF c c := by
  rw [dotF_finset, dotF_finset]
  unfold rollF
  exact Fintype.sum_equiv (Equiv.subRight s) _ _ (fun i => rfl)

theorem sumF_normalize (c : Fin 12 → ℚ) (h : sumF c ≠ 0) :
    sumF (normalizeChroma c) = 1 := by
  rw [sumF_finset]
  unfold normalizeChroma
  rw [← Finset.sum_div, ← sumF_finset]
  exact div_self h

theorem dotF_self_pos (c : Fin 12 → ℚ) (h : ∃ i, c i ≠ 0) : 0 < dotF c c := by
  rw [dotF_finset]
  obtain ⟨i, hi⟩ := h
  exact Finset.sum_pos' (fun j _ => mul_self_nonneg (c j))
    ⟨i, Finset.mem_univ i, mul_self_pos.mpr hi⟩

theorem tmpl_dot_pos : ∀ t : ChordType, 0 < dotF (tmpl t) (tmpl t) := by
  intro t
  cases t <;> exact of_decide_eq_true (by with_unfolding_all rfl)

theorem normalizeChroma_ne_zero (c : Fin 12 → ℚ) (h : 0 < sumF c) :
    ∃ i, normalizeChroma c i ≠ 0 := by
  have h1 : sumF (normalizeChroma c) = 1 := sumF_normalize c h.ne'
  have h2 : (∑ i : Fin 12, normalizeChroma c i) ≠ 0 := by
    rw [← sumF_finset, h1]
    norm_num
  obtain ⟨i, _, hi⟩ := Finset.exists_ne_zero_of_sum_ne_zero h2
  exact ⟨i, hi⟩

theorem chordSim_den_pos (c : Fin 12 → ℚ) (h : ∃ i, c i ≠ 0)
    (cand : Fin 12 × ChordType) : 0 < (chordSim c cand).den := by
  unfold chordSim
  exact mul_pos (tmpl_dot_pos cand.2)
    (by rw [dotF_rot_self]; exact dotF_self_pos c h)

/-- C10: `detect_chord` is total.  If the chroma sum is not positive the
function returns the unlabeled outcome before any division; if the sum is
positive, every candidate's cosine-similarity denominator
`dot(template, template) * dot(rotated, rotated)` is positive, so no
division by zero is reachable. -/
theorem c10_detectChord_total :
    (∀ (c : Fin 12 → ℚ) (th : ℚ), sumF c ≤ 0 → detectChord c th = none)
  ∧ (∀ (c : Fin 12 → ℚ), 0 < sumF c →
       ∀ cand ∈ chordCandidates,
         0 < (chordSim (normalizeChroma c) cand).den) := by
  constructor
  · intro c th h
    unfold detectChord
    rw [if_neg (not_lt.mpr h)]
  · intro c h cand _
    exact chordSim_den_pos (normalizeChroma c) (normalizeChroma_ne_zero c h) cand

/-- Witness for C10: the all-zero chroma frame is rejected outright, and a
positive-sum chroma has a positive similarity denominator. -/
theorem c10_detectChord_total_witness :
    detectChord (fun _ => (0 : ℚ)) (3/5) = none
  ∧ 0 < (chordSim (normalizeChroma (fun _ => (1 : ℚ)))
      ((0 : Fin 12), ChordType.major)).den := by
  constructor
  · exact c10_detectChord_total.1 (fun _ => 0) (3/5)
      (le_of_eq (by with_unfolding_all rfl))
  · exact c10_detectChord_total.2 (fun _ => 1)
      (of_decide_eq_true (by with_unfolding_all rfl))
      ((0 : Fin 12), ChordType.major) (by decide)

theorem simVal_thr (q : ℚ) : simVal ⟨q, 1⟩ = (q : ℝ) := by
  unfold simVal
  push_cast
  rw [Real.sqrt_one, div_one]

theorem simVal_pos (s : Sim) (hn : 0 < s.num) (hd : 0 < s.den) : 0 < simVal s := by
  unfold simVal
  have h1 : (0 : ℝ) < (s.num : ℝ) := by exact_mod_cast hn
  have h2 : (0 : ℝ) < (s.den : ℝ) := by exact_mod_cast hd
  exact div_pos h1 (Real.sqrt_pos.mpr h2)

theorem Sim.lt_iff_simVal {a b : Sim} (ha : 0 < a.den) (hb : 0 < b.den) :
    Sim.lt a b ↔ simVal a < simVal b := by
  unfold simVal
  exact Sim.lt_iff_val ha hb

theorem Sim.le_iff_simVal {a b : Sim} (ha : 0 < a.den) (hb : 0 < b.den) :
    Sim.le a b ↔ simVal a ≤ simVal b := by
  unfold simVal
  exact Sim.le_iff_val ha hb

theorem chordFold_fst_mem :
    ∀ (l : List ((Fin 12 × ChordType) × Sim))
      (b : Sim × Option (Fin 12 × ChordType × Sim)),
      (l.foldl chordStep b).1 = b.1 ∨ ∃ x ∈ l, (l.foldl chordStep b).1 = x.2 := by
  intro l
  induction l with
  | nil => intro b; left; rfl
  | cons x xs ih =>
      intro b
      rw [List.foldl_cons]
      rcases ih (chordStep b x) with h | ⟨y, hy, hyy⟩
      · rw [h]
        unfold chordStep
        split_ifs
        · right; exact ⟨x, by simp, rfl⟩
        · left; rfl
      · right; exact ⟨y, by simp [hy], hyy⟩

theorem chordFold_fst_den_pos (l : List ((Fin 12 × ChordType) × Sim))
    (b : Sim × Option (Fin 12 × ChordType × Sim))
    (hden : ∀ x ∈ l, 0 < x.2.den) (hb : 0 < b.1.den) :
    0 < (l.foldl chordStep b).1.den := by
  rcases chordFold_fst_mem l b with h | ⟨x, hx, h⟩
  · rw [h]; exact hb
  · rw [h]; exact hden x hx

theorem chordFold_ub :
    ∀ (l : List ((Fin 12 × ChordType) × Sim))
      (b : Sim × Option (Fin 12 × ChordType × Sim)),
      (∀ x ∈ l, 0 < x.2.den) → 0 < b.1.den →
      (∀ x ∈ l, simVal x.2 ≤ simVal (l.foldl chordStep b).1) ∧
        simVal b.1 ≤ simVal (l.foldl chordStep b).1 := by
  intro l
  induction l with
  | nil =>
      intro b _ _
      exact ⟨fun x hx => absurd hx (List.not_mem_nil x), le_refl _⟩
  | cons x xs ih =>
      intro b hden hb
      have hxden : 0 < x.2.den := hden x (by simp)
      have hxsden : ∀ y ∈ xs, 0 < y.2.den := fun y hy => hden y (by simp [hy])
      rw [List.foldl_cons]
      by_cases hlt : Sim.lt b.1 x.2
      · have hstep : chordStep b x = (x.2, some (x.1.1, x.1.2, x.2)) := by
          unfold chordStep; rw [if_pos hlt]
        have ih' := ih (chordStep b x) hxsden (by rw [hstep]; exact hxden)
        have hx2 : simVal x.2 ≤ simVal (xs.foldl chordStep (chordStep b x)).1 := by
          have h2 := ih'.2
          rw [hstep] at h2 ⊢
          exact h2
        constructor
        · intro y hy
          rcases List.mem_cons.mp hy with rfl | hy'
          · exact hx2
          · exact ih'.1 y hy'
        · have h1 : simVal b.1 < simVal x.2 := (Sim.lt_iff_simVal hb hxden).mp hlt
          linarith
      · have hstep : chordStep b x = b := by
          unfold chordStep; rw [if_neg hlt]
        have ih' := ih (chordStep b x) hxsden (by rw [hstep]; exact hb)
        have hb2 : simVal b.1 ≤ simVal (xs.foldl chordStep (chordStep b x)).1 := by
          have h2 := ih'.2
          rw [hstep] at h2 ⊢
          exact h2
        constructor
        · intro y hy
          rcases List.mem_cons.mp hy with rfl | hy'
          · have h1 : ¬ simVal b.1 < simVal y.2 :=
              fun hc => hlt ((Sim.lt_iff_simVal hb hxden).mpr hc)
            push_neg at h1
            linarith
          · exact ih'.1 y hy'
        · exact hb2

theorem chordFold_isSome_mono :
    ∀ (l : List ((Fin 12 × ChordType) × Sim))
      (b : Sim × Option (Fin 12 × ChordType × Sim)),
      b.2.isSome → (l.foldl chordStep b).2.isSome := by
  intro l
  induction l with
  | nil => intro b hb; exact hb
  | cons x xs ih =>
      intro b hb
      rw [List.foldl_cons]
      apply ih
      unfold chordStep
      split_ifs
      · rfl
      · exact hb

theorem chordFold_isSome :
    ∀ (l : List ((Fin 12 × ChordType) × Sim))
      (b : Sim × Option (Fin 12 × ChordType × Sim)),
      (∃ x ∈ l, Sim.lt b.1 x.2) → (l.foldl chordStep b).2.isSome := by
  intro l
  induction l with
  | nil => rintro b ⟨x, hx, _⟩; exact absurd hx (List.not_mem_nil x)
  | cons x xs ih =>
      rintro b ⟨y, hy, hylt⟩
      rw [List.foldl_cons]
      by_cases hlt : Sim.lt b.1 x.2
      · apply chordFold_isSome_mono
        unfold chordStep
        rw [if_pos hlt]
        rfl
      · have hstep : chordStep b x = b := by unfold chordStep; rw [if_neg hlt]
        rcases List.mem_cons.mp hy with rfl | hy'
        · exact absurd hylt hlt
        · exact ih (chordStep b x) ⟨y, hy', by rw [hstep]; exact hylt⟩

theorem sum_chordSim_num (c : Fin 12 → ℚ) (t : ChordType) :
    ∑ r : Fin 12, (chordSim c (r, t)).num = sumF (tmpl t) * sumF c := by
  unfold chordSim
  simp only [dotF_finset, sumF_finset]
  unfold rollF
  simp only [sub_neg_eq_add]
  rw [Finset.sum_comm, Finset.sum_mul]
  apply Finset.sum_congr rfl
  intro i _
  rw [← Finset.sum_mul,
    show (∑ r : Fin 12, c (i + r)) = ∑ j : Fin 12, c j from
      Fintype.sum_equiv (Equiv.addLeft i) _ _ (fun r => rfl)]
  ring

theorem exists_pos_num_candidate (c : Fin 12 → ℚ) (h : 0 < sumF c) :
    ∃ cand ∈ chordCandidates, 0 < (chordSim (normalizeChroma c) cand).num := by
  have h1 : sumF (normalizeChroma c) = 1 := sumF_normalize c h.ne'
  have hmaj : sumF (tmpl ChordType.major) = 3 := by with_unfolding_all rfl
  have hsum : ∑ r : Fin 12,
      (chordSim (normalizeChroma c) (r, ChordType.major)).num = 3 := by
    rw [sum_chordSim_num, h1, hmaj, mul_one]
  by_contra hcon
  push_neg at hcon
  have hmem : ∀ r : Fin 12, (r, ChordType.major) ∈ chordCandidates := by decide
  have hall : ∑ r : Fin 12,
      (chordSim (normalizeChroma c) (r, ChordType.major)).num ≤ 0 :=
    Finset.sum_nonpos (fun r _ => hcon (r, ChordType.major) (hmem r))
  rw [hsum] at hall
  norm_num at hall

theorem detectChord_eq_of_pos (c : Fin 12 → ℚ) (th : ℚ) (h : 0 < sumF c) :
    detectChord c th =
      if Sim.le ⟨th, 1⟩ (bestChord (chordSims (normalizeChroma c))).1
      then (bestChord (chordSims (normalizeChroma c))).2 else none := by
  simp only [detectChord]
  rw [if_pos h]

theorem detectChord_isSome_iff (c : Fin 12 → ℚ) (th : ℚ) (h : 0 < sumF c) :
    (detectChord c th).isSome ↔
      ∃ cand ∈ chordCandidates,
        Sim.le ⟨th, 1⟩ (chordSim (normalizeChroma c) cand) := by
  have hex := normalizeChroma_ne_zero c h
  have hden : ∀ x ∈ chordSims (normalizeChroma c), 0 < x.2.den := by
    intro x hx
    obtain ⟨cand, _, hc2⟩ := List.mem_map.mp hx
    rw [← hc2]
    exact chordSim_den_pos _ hex cand
  have hthden : (0 : ℚ) < (⟨th, 1⟩ : Sim).den := by norm_num
  have hbase : (0 : ℚ) < ((⟨-1, 1⟩ : Sim), (none : Option (Fin 12 × ChordType × Sim))).1.den := by
    norm_num
  have hBden : 0 < ((chordSims (normalizeChroma c)).foldl chordStep
      (⟨-1, 1⟩, none)).1.den :=
    chordFold_fst_den_pos _ _ hden hbase
  have hbaseval : simVal (⟨-1, 1⟩ : Sim) = -1 := by
    unfold simVal
    push_cast
    rw [Real.sqrt_one]
    norm_num
  obtain ⟨cand0, hc0mem, hc0pos⟩ := exists_pos_num_candidate c h
  have hx0den : 0 < (chordSim (normalizeChroma c) cand0).den :=
    chordSim_den_pos _ hex cand0
  have hx0mem : (cand0, chordSim (normalizeChroma c) cand0) ∈
      chordSims (normalizeChroma c) :=
    List.mem_map_of_mem _ hc0mem
  have hx0val : 0 < simVal (chordSim (normalizeChroma c) cand0) :=
    simVal_pos _ hc0pos hx0den
  rw [detectChord_eq_of_pos c th h]
  simp only [bestChord]
  constructor
  · intro hsome
    split_ifs at hsome with hth
    · rcases chordFold_fst_mem (chordSims (normalizeChroma c)) (⟨-1, 1⟩, none)
        with hfst | ⟨x, hxl, hfst⟩
      · refine ⟨cand0, hc0mem, ?_⟩
        rw [Sim.le_iff_simVal hthden hx0den]
        have h1 := (Sim.le_iff_simVal hthden hBden).mp hth
        rw [hfst] at h1
        simp only at h1
        rw [hbaseval] at h1
        linarith
      · obtain ⟨cand, hcmem, hxeq⟩ := List.mem_map.mp hxl
        refine ⟨cand, hcmem, ?_⟩
        have hcden := chordSim_den_pos (normalizeChroma c) hex cand
        rw [Sim.le_iff_simVal hthden hcden]
        have h1 := (Sim.le_iff_simVal hthden hBden).mp hth
        rw [hfst, ← hxeq] at h1
        exact h1
    · simp at hsome
  · rintro ⟨cand, hcmem, hle⟩
    have hxmem : (cand, chordSim (normalizeChroma c) cand) ∈
        chordSims (normalizeChroma c) :=
      List.mem_map_of_mem _ hcmem
    have hcden := chordSim_den_pos (normalizeChroma c) hex cand
    have hub := chordFold_ub (chordSims (normalizeChroma c)) (⟨-1, 1⟩, none)
      hden hbase
    have h1 : simVal (chordSim (normalizeChroma c) cand) ≤
        simVal ((chordSims (normalizeChroma c)).foldl chordStep (⟨-1, 1⟩, none)).1 := by
      simpa using hub.1 _ hxmem
    have hth : Sim.le ⟨th, 1⟩ ((chordSims (normalizeChroma c)).foldl chordStep
        (⟨-1, 1⟩, none)).1 := by
      rw [Sim.le_iff_simVal hthden hBden]
      have h2 := (Sim.le_iff_simVal hthden hcden).mp hle
      linarith
    rw [if_pos hth]
    apply chordFold_isSome
    refine ⟨(cand0, chordSim (normalizeChroma c) cand0), hx0mem, ?_⟩
    have : Sim.lt (⟨-1, 1⟩ : Sim) (chordSim (normalizeChroma c) cand0) := by
      rw [Sim.lt_iff_simVal (by norm_num) hx0den, hbaseval]
      linarith
    exact this


theorem chordSim_sq_le (c : Fin 12 → ℚ) (cand : Fin 12 × ChordType) :
    (chordSim c cand).num ^ 2 ≤ (chordSim c cand).den := by
  unfold chordSim
  simp only [dotF_finset]
  have h := Finset.sum_mul_sq_le_sq_mul_sq Finset.univ
    (rollF c (-cand.1)) (tmpl cand.2)
  rw [mul_comm]
  simpa only [pow_two] using h

theorem not_lt_one_of_sq_le (s : Sim) (h : s.num ^ 2 ≤ s.den) :
    ¬ Sim.lt ⟨1, 1⟩ s := by
  unfold Sim.lt
  rintro (⟨h1, -⟩ | ⟨-, -, h3⟩ | ⟨h1, -⟩)
  · norm_num at h1
  · norm_num at h3
    linarith
  · norm_num at h1

theorem foldl_chordStep_const (l : List ((Fin 12 × ChordType) × Sim))
    (b : Sim × Option (Fin 12 × ChordType × Sim))
    (h : ∀ x ∈ l, ¬ Sim.lt b.1 x.2) :
    l.foldl chordStep b = b := by
  induction l with
  | nil => rfl
  | cons x xs ih =>
      rw [List.foldl_cons]
      have hx : ¬ Sim.lt b.1 x.2 := h x (by simp)
      have hstep : chordStep b x = b := by unfold chordStep; rw [if_neg hx]
      rw [hstep]
      exact ih (fun y hy => h y (by simp [hy]))

theorem detectChord_uniform_none :
    detectChord (fun _ => (1 : ℚ)) (3/5) = none := by
  have h : (0 : ℚ) < sumF (fun _ => (1 : ℚ)) :=
    of_decide_eq_true (by with_unfolding_all rfl)
  have hnorm : normalizeChroma (fun _ => (1 : ℚ)) = fun _ => (1/12 : ℚ) := by
    funext i
    with_unfolding_all rfl
  have hcsim : ∀ cand : Fin 12 × ChordType,
      chordSim (fun _ => (1/12 : ℚ)) cand =
        chordSim (fun _ => (1/12 : ℚ)) ((0 : Fin 12), cand.2) := by
    intro cand
    with_unfolding_all rfl
  have h7 : ∀ t : ChordType,
      Sim.lt (chordSim (fun _ => (1/12 : ℚ)) ((0 : Fin 12), t)) ⟨3/5, 1⟩ := by
    intro t
    cases t <;> exact of_decide_eq_true (by with_unfolding_all rfl)
  have hneg : ¬ Sim.le ⟨3/5, 1⟩
      (bestChord (chordSims (fun _ => (1/12 : ℚ)))).1 := by
    intro hle
    unfold bestChord at hle
    rcases chordFold_fst_mem (chordSims (fun _ => (1/12 : ℚ))) (⟨-1, 1⟩, none)
      with hfst | ⟨x, hx, hfst⟩
    · rw [hfst] at hle
      exact hle (of_decide_eq_true (by with_unfolding_all rfl))
    · obtain ⟨cand, hcmem, hceq⟩ := List.mem_map.mp hx
      have hx2 : x.2 = chordSim (fun _ => (1/12 : ℚ)) cand := by
        rw [← hceq]
      rw [hfst, hx2, hcsim cand] at hle
      exact hle (h7 cand.2)
  rw [detectChord_eq_of_pos _ _ h, hnorm, if_neg hneg]

theorem bestChord_cmajor :
    bestChord (chordSims (normalizeChroma (tmpl ChordType.major))) =
      (⟨1, 1⟩, some ((0 : Fin 12), ChordType.major, (⟨1, 1⟩ : Sim))) := by
  have hcand : chordCandidates =
      ((0 : Fin 12), ChordType.major) :: chordCandidates.tail := by
    with_unfolding_all rfl
  unfold bestChord chordSims
  rw [hcand, List.map_cons, List.foldl_cons]
  refine (foldl_chordStep_const _ _ ?_).trans ?_
  · intro x hx
    obtain ⟨cand, hcmem, hceq⟩ := List.mem_map.mp hx
    have hx2 : x.2 = chordSim (normalizeChroma (tmpl ChordType.major)) cand := by
      rw [← hceq]
    rw [hx2]
    have h1 : (chordStep (⟨-1, 1⟩, none)
        ((fun cand => (cand, chordSim (normalizeChroma (tmpl ChordType.major)) cand))
          ((0 : Fin 12), ChordType.major))).1 = ⟨1, 1⟩ := by
      with_unfolding_all rfl
    rw [h1]
    exact not_lt_one_of_sq_le _ (chordSim_sq_le _ cand)
  · with_unfolding_all rfl

theorem detectChord_cmajor :
    detectChord (tmpl ChordType.major) (3/5) =
      some ((0 : Fin 12), ChordType.major, (⟨1, 1⟩ : Sim)) := by
  have h : (0 : ℚ) < sumF (tmpl ChordType.major) :=
    of_decide_eq_true (by with_unfolding_all rfl)
  rw [detectChord_eq_of_pos _ _ h, bestChord_cmajor,
    if_pos (of_decide_eq_true (by with_unfolding_all rfl))]

/-- C4: for a chroma frame with positive sum, `detect_chord` returns a labeled
`(root, chord type, similarity)` triple if and only if some of the 84
(root, template) candidates reaches the threshold in cosine similarity
(otherwise the unlabeled outcome, modeled as `none`, is returned).  Moreover,
at the default threshold `0.6 = 3/5`, a uniform (all-equal) chroma vector is
rejected, while a chroma vector equal to the C-major template yields root 0
(= C), type major, with similarity `⟨1, 1⟩`, whose real value is exactly 1. -/
theorem c4_detectChord_threshold_and_instances :
    (∀ (c : Fin 12 → ℚ) (th : ℚ), 0 < sumF c →
      ((detectChord c th).isSome ↔
        ∃ cand ∈ chordCandidates,
          Sim.le ⟨th, 1⟩ (chordSim (normalizeChroma c) cand)))
  ∧ detectChord (fun _ => (1 : ℚ)) (3/5) = none
  ∧ detectChord (tmpl ChordType.major) (3/5) =
      some ((0 : Fin 12), ChordType.major, (⟨1, 1⟩ : Sim))
  ∧ simVal ⟨1, 1⟩ = 1 := by
  refine ⟨fun c th h => detectChord_isSome_iff c th h,
    detectChord_uniform_none, detectChord_cmajor, ?_⟩
  rw [simVal_thr]
  norm_num

/-- Witness for C4: the threshold characterization applied at the concrete
C-major-template chroma, whose sum is positive, together with the concrete
uniform-chroma rejection. -/
theorem c4_detectChord_threshold_witness :
    ((detectChord (tmpl ChordType.major) (3/5)).isSome ↔
      ∃ cand ∈ chordCandidates,
        Sim.le ⟨3/5, 1⟩ (chordSim (normalizeChroma (tmpl ChordType.major)) cand))
  ∧ detectChord (fun _ => (1 : ℚ)) (3/5) = none :=
  ⟨c4_detectChord_threshold_and_instances.1 (tmpl ChordType.major) (3/5)
      (of_decide_eq_true (by with_unfolding_all rfl)),
   c4_detectChord_threshold_and_instances.2.1⟩

theorem pruneGo_not_mem :
    ∀ (l : List (ℕ × ℚ)) (kept : List ℕ), ∀ j ∈ kept, j ∉ pruneGo kept l := by
  intro l
  induction l with
  | nil => intro kept j hj; simp [pruneGo]
  | cons x xs ih =>
      intro kept j hj
      unfold pruneGo
      split_ifs with hx
      · intro hmem
        rcases List.mem_cons.mp hmem with heq | hmem'
        · have h3 := hx j hj
          rw [heq] at h3
          simp at h3
        · exact ih (x.1 :: kept) j (List.mem_cons_of_mem _ hj) hmem'
      · exact ih kept j hj

theorem pruneGo_nodup :
    ∀ (l : List (ℕ × ℚ)) (kept : List ℕ), (pruneGo kept l).Nodup := by
  intro l
  induction l with
  | nil => intro kept; simp [pruneGo]
  | cons x xs ih =>
      intro kept
      unfold pruneGo
      split_ifs with hx
      · exact List.nodup_cons.mpr
          ⟨pruneGo_not_mem xs (x.1 :: kept) x.1 (List.mem_cons_self _ _), ih _⟩
      · exact ih kept

theorem selectPitches_nodup (maxPoly : ℕ) (th : ℚ) (col : List ℚ) :
    (selectPitches maxPoly th col).Nodup := by
  unfold selectPitches
  exact (List.take_sublist _ _).nodup (pruneGo_nodup _ _)

theorem selectPitches_length (maxPoly : ℕ) (th : ℚ) (col : List ℚ) :
    (selectPitches maxPoly th col).length ≤ maxPoly := by
  unfold selectPitches
  exact List.length_take_le _ _

theorem closeNote_spec (dlt minDur : ℚ) (normSal : ℕ → ℕ → ℚ) (f : ℕ)
    (a : PAct) (n : PNote) (h : closeNote dlt minDur normSal f a = some n) :
    n.1 = (a.2.1 : ℚ) * dlt ∧ n.1 + n.2.1 = (f : ℚ) * dlt ∧
      n.2.2.1 = 21 + (a.1 : ℤ) := by
  simp only [closeNote] at h
  split_ifs at h with hd
  have he := Option.some.inj h
  rw [← he]
  refine ⟨rfl, by ring, rfl⟩

theorem pairwise_filterMap_of {α β : Type} (f : α → Option β)
    {R : β → β → Prop} {S : α → α → Prop} :
    ∀ (l : List α), l.Pairwise S →
      (∀ a a', S a a' → ∀ x, f a = some x → ∀ y, f a' = some y → R x y) →
      (l.filterMap f).Pairwise R := by
  intro l
  induction l with
  | nil => intro _ _; simp
  | cons a l ih =>
      intro hp himp
      rw [List.filterMap_cons]
      rcases hfa : f a with _ | b
      · exact ih (List.Pairwise.of_cons hp) himp
      · refine List.Pairwise.cons ?_ (ih (List.Pairwise.of_cons hp) himp)
        intro y hy
        obtain ⟨a', ha'mem, ha'⟩ := List.mem_filterMap.mp hy
        exact himp a a' ((List.pairwise_cons.mp hp).1 a' ha'mem) b hfa y ha'

theorem polyStep_inv (dlt minDur : ℚ) (normSal : ℕ → ℕ → ℚ) (C : ℕ → List ℕ)
    (f : ℕ) (st : List PAct × List PNote) (hdlt : 0 ≤ dlt)
    (hinv : polyInv dlt C f st) (hcur : (C f).Nodup) :
    polyInv dlt C (f + 1) (polyStep dlt minDur normSal st f (C f)) := by
  obtain ⟨hA, hB, hC, hD, hE⟩ := hinv
  have hfst : (polyStep dlt minDur normSal st f (C f)).1 =
      (st.1.filter (fun a => decide (a.1 ∈ C f))).map
        (fun a => (a.1, a.2.1, a.2.2 ++ [f])) ++
      ((C f).filter (fun p => decide (∀ a ∈ st.1, a.1 ≠ p))).map
        (fun p => (p, f, ([f] : List ℕ))) := rfl
  have hsnd : (polyStep dlt minDur normSal st f (C f)).2 =
      st.2 ++ (st.1.filter (fun a => !(decide (a.1 ∈ C f)))).filterMap
        (closeNote dlt minDur normSal f) := rfl
  refine ⟨?_, ?_, ?_, ?_, ?_⟩
  · -- (A) active records: start ≤ f+1 and coverage on [start, f+1)
    intro a' ha'
    rw [hfst] at ha'
    rcases List.mem_append.mp ha' with hk | hf
    · obtain ⟨a, hamem, haeq⟩ := List.mem_map.mp hk
      obtain ⟨hain, hacur⟩ := List.mem_filter.mp hamem
      have hacur' : a.1 ∈ C f := of_decide_eq_true hacur
      obtain ⟨has, hacov⟩ := hA a hain
      rw [← haeq]
      refine ⟨Nat.le_succ_of_le has, ?_⟩
      intro m hm1 hm2
      rcases Nat.lt_succ_iff_lt_or_eq.mp hm2 with hmf | rfl
      · exact hacov m hm1 hmf
      · exact hacur'
    · obtain ⟨p, hpmem, hpeq⟩ := List.mem_map.mp hf
      obtain ⟨hpin, _⟩ := List.mem_filter.mp hpmem
      rw [← hpeq]
      refine ⟨Nat.le_succ f, ?_⟩
      intro m hm1 hm2
      have hm1' : f ≤ m := hm1
      have : m = f := by omega
      rw [this]
      exact hpin
  · -- (B) emitted notes: grid endpoints and coverage
    intro n hn
    rw [hsnd] at hn
    rcases List.mem_append.mp hn with hold | hnew
    · obtain ⟨p, s, e, h1, h2, h3, h4, h5⟩ := hB n hold
      exact ⟨p, s, e, h1, h2, h3, Nat.le_succ_of_le h4, h5⟩
    · obtain ⟨a, hamem, ha⟩ := List.mem_filterMap.mp hnew
      obtain ⟨hain, _⟩ := List.mem_filter.mp hamem
      obtain ⟨hs, he, hp⟩ := closeNote_spec dlt minDur normSal f a n ha
      obtain ⟨has, hacov⟩ := hA a hain
      exact ⟨a.1, a.2.1, f, hp, hs, he, Nat.le_succ f,
        fun m hm1 hm2 => hacov m hm1 hm2⟩
  · -- (C) active pitches are distinct
    rw [hfst, List.map_append]
    rw [List.nodup_append]
    refine ⟨?_, ?_, ?_⟩
    · rw [List.map_map]
      have : ((fun a : PAct => a.1) ∘ (fun a : PAct => (a.1, a.2.1, a.2.2 ++ [f]))) =
          fun a : PAct => a.1 := rfl
      rw [this]
      exact ((st.1.filter_sublist).map _).nodup hC
    · rw [List.map_map]
      have : ((fun a : PAct => a.1) ∘ (fun p : ℕ => (p, f, ([f] : List ℕ)))) =
          fun p : ℕ => p := rfl
      rw [this]
      have h1 : ((C f).filter (fun p => decide (∀ a ∈ st.1, a.1 ≠ p))).map
          (fun p => p) = (C f).filter (fun p => decide (∀ a ∈ st.1, a.1 ≠ p)) :=
        List.map_id _
      rw [h1]
      exact ((C f).filter_sublist).nodup hcur
    · intro x hx hy
      obtain ⟨a', ha'm, ha'eq⟩ := List.mem_map.mp hx
      obtain ⟨a, hamem, haeq⟩ := List.mem_map.mp ha'm
      obtain ⟨hain, _⟩ := List.mem_filter.mp hamem
      obtain ⟨q', hq'm, hq'eq⟩ := List.mem_map.mp hy
      obtain ⟨p, hpmem, hpeq⟩ := List.mem_map.mp hq'm
      obtain ⟨_, hpfree⟩ := List.mem_filter.mp hpmem
      have hpfree' : ∀ b ∈ st.1, b.1 ≠ p := of_decide_eq_true hpfree
      have hax : a.1 = x := by rw [← haeq] at ha'eq; exact ha'eq
      have hpx : p = x := by rw [← hpeq] at hq'eq; exact hq'eq
      exact hpfree' a hain (by rw [hax, hpx])
  · -- (D) every note's end precedes the start of a same-pitch active record
    intro n hn a' ha' hpitch
    rw [hsnd] at hn
    rw [hfst] at ha'
    rcases List.mem_append.mp ha' with hk | hf
    · obtain ⟨a, hamem, haeq⟩ := List.mem_map.mp hk
      obtain ⟨hain, hacur⟩ := List.mem_filter.mp hamem
      have hacur' : a.1 ∈ C f := of_decide_eq_true hacur
      rcases List.mem_append.mp hn with hold | hnew
      · have h1 : n.2.2.1 = 21 + (a.1 : ℤ) := by
          rw [hpitch, ← haeq]
        have h2 := hD n hold a hain h1
        rw [← haeq]
        exact h2
      · obtain ⟨b, hbmem, hb⟩ := List.mem_filterMap.mp hnew
        obtain ⟨hbin, hbno⟩ := List.mem_filter.mp hbmem
        have hbno' : b.1 ∉ C f := by
          intro hbc
          rw [Bool.not_eq_true', decide_eq_false_iff_not] at hbno
          exact hbno hbc
        obtain ⟨_, _, hbp⟩ := closeNote_spec dlt minDur normSal f b n hb
        have : b.1 = a.1 := by
          have h3 : (21 : ℤ) + (b.1 : ℤ) = 21 + (a.1 : ℤ) := by
            rw [← hbp, hpitch, ← haeq]
          have h4 : ((b.1 : ℤ)) = (a.1 : ℤ) := by linarith
          exact_mod_cast h4
        rw [this] at hbno'
        exact absurd hacur' hbno'
    · obtain ⟨p, hpmem, hpeq⟩ := List.mem_map.mp hf
      obtain ⟨hpin, hpfree⟩ := List.mem_filter.mp hpmem
      have hpfree' : ∀ b ∈ st.1, b.1 ≠ p := of_decide_eq_true hpfree
      rcases List.mem_append.mp hn with hold | hnew
      · obtain ⟨q, s, e, h1, h2, h3, h4, h5⟩ := hB n hold
        have ha'2 : a'.2.1 = f := by rw [← hpeq]
        rw [ha'2, h3]
        have : (e : ℚ) ≤ (f : ℚ) := by exact_mod_cast h4
        exact mul_le_mul_of_nonneg_right this hdlt
      · obtain ⟨b, hbmem, hb⟩ := List.mem_filterMap.mp hnew
        obtain ⟨hbin, _⟩ := List.mem_filter.mp hbmem
        obtain ⟨_, _, hbp⟩ := closeNote_spec dlt minDur normSal f b n hb
        exfalso
        apply hpfree' b hbin
        have h3 : (21 : ℤ) + (b.1 : ℤ) = 21 + (p : ℤ) := by
          rw [← hbp, hpitch, ← hpeq]
        have h4 : ((b.1 : ℤ)) = (p : ℤ) := by linarith
        exact_mod_cast h4
  · -- (E) same-pitch notes have disjoint spans
    rw [hsnd]
    rw [List.pairwise_append]
    have hpne : st.1.Pairwise (fun a b : PAct => a.1 ≠ b.1) :=
      List.pairwise_map.mp hC
    refine ⟨hE, ?_, ?_⟩
    · apply pairwise_filterMap_of (closeNote dlt minDur normSal f) _
        (hpne.sublist (List.filter_sublist _))
      intro a a' hS x hx y hy
      obtain ⟨_, _, hxp⟩ := closeNote_spec dlt minDur normSal f a x hx
      obtain ⟨_, _, hyp⟩ := closeNote_spec dlt minDur normSal f a' y hy
      intro heq
      exfalso
      apply hS
      have h3 : (21 : ℤ) + (a.1 : ℤ) = 21 + (a'.1 : ℤ) := by
        rw [← hxp, heq, hyp]
      have h4 : ((a.1 : ℤ)) = (a'.1 : ℤ) := by linarith
      exact_mod_cast h4
    · intro n hn1 n' hn'
      obtain ⟨b, hbmem, hb⟩ := List.mem_filterMap.mp hn'
      obtain ⟨hbin, _⟩ := List.mem_filter.mp hbmem
      obtain ⟨hbs, _, hbp⟩ := closeNote_spec dlt minDur normSal f b n' hb
      intro heq
      left
      have h1 : n.2.2.1 = 21 + (b.1 : ℤ) := by rw [heq, hbp]
      have h2 := hD n hn1 b hbin h1
      rw [hbs]
      exact h2

theorem polyRun_inv (dlt minDur : ℚ) (normSal : ℕ → ℕ → ℚ) (C : ℕ → List ℕ)
    (hdlt : 0 ≤ dlt) (hCn : ∀ m, (C m).Nodup) :
    ∀ (curs : List (List ℕ)) (f : ℕ) (st : List PAct × List PNote),
      polyInv dlt C f st →
      (∀ j, j < curs.length → curs.getD j [] = C (f + j)) →
      polyInv dlt C (f + curs.length) (polyRun dlt minDur normSal f st curs) := by
  intro curs
  induction curs with
  | nil =>
      intro f st hinv _
      simpa using hinv
  | cons cur rest ih =>
      intro f st hinv hget
      have hcur0 : cur = C f := by
        have h0 := hget 0 (by simp)
        simpa using h0
      have hstep := polyStep_inv dlt minDur normSal C f st hdlt hinv (hCn f)
      rw [← hcur0] at hstep
      have hrest : ∀ j, j < rest.length → rest.getD j [] = C (f + 1 + j) := by
        intro j hj
        have h1 := hget (j + 1) (by simpa using Nat.succ_lt_succ hj)
        rw [show (cur :: rest).getD (j + 1) [] = rest.getD j [] from rfl] at h1
        rw [h1]
        congr 1
        omega
      have h := ih (f + 1) (polyStep dlt minDur normSal st f cur) hstep hrest
      have hlen : f + (cur :: rest).length = f + 1 + rest.length := by
        simp [List.length_cons]
        omega
      rw [hlen]
      exact h

theorem covering_count (dlt : ℚ) (C : ℕ → List ℕ) (t : ℚ) (hdlt : 0 < dlt)
    (ns : List PNote)
    (hOK : ∀ n ∈ ns, ∃ p s e : ℕ, n.2.2.1 = 21 + (p : ℤ) ∧ n.1 = (s : ℚ) * dlt ∧
      n.1 + n.2.1 = (e : ℚ) * dlt ∧ ∀ m, s ≤ m → m < e → p ∈ C m)
    (hPW : ns.Pairwise (fun n n' => n.2.2.1 = n'.2.2.1 →
      n.1 + n.2.1 ≤ n'.1 ∨ n'.1 + n'.2.1 ≤ n.1)) :
    ((ns.filter (fun n => decide (n.1 ≤ t) && decide (t < n.1 + n.2.1))).length ≤
      (C (Nat.floor (t / dlt))).length) := by
  set cov := ns.filter (fun n => decide (n.1 ≤ t) && decide (t < n.1 + n.2.1))
    with hcovdef
  have hcov : ∀ n ∈ cov, n.1 ≤ t ∧ t < n.1 + n.2.1 ∧ n ∈ ns := by
    intro n hn
    rw [hcovdef] at hn
    obtain ⟨hmem, hfl⟩ := List.mem_filter.mp hn
    rw [Bool.and_eq_true] at hfl
    exact ⟨of_decide_eq_true hfl.1, of_decide_eq_true hfl.2, hmem⟩
  have hpitch : ∀ n ∈ cov, ∃ p : ℕ, n.2.2.1 = 21 + (p : ℤ) ∧
      p ∈ C (Nat.floor (t / dlt)) := by
    intro n hn
    obtain ⟨h1, h2, hmem⟩ := hcov n hn
    obtain ⟨p, s, e, hp, hs, he, hcovg⟩ := hOK n hmem
    refine ⟨p, hp, ?_⟩
    have hst : (s : ℚ) * dlt ≤ t := by rw [← hs]; exact h1
    have hte : t < (e : ℚ) * dlt := by rw [← he]; exact h2
    have ht0 : 0 ≤ t := by
      have hs0 : (0 : ℚ) ≤ (s : ℚ) * dlt :=
        mul_nonneg (Nat.cast_nonneg s) hdlt.le
      linarith
    apply hcovg
    · apply Nat.le_floor
      rw [le_div_iff₀ hdlt]
      exact hst
    · rw [Nat.floor_lt (div_nonneg ht0 hdlt.le)]
      rw [div_lt_iff₀ hdlt]
      exact hte
  have hnd : (cov.map (fun n => n.2.2.1)).Nodup := by
    have hpw2 : cov.Pairwise (fun n n' => n.2.2.1 ≠ n'.2.2.1) := by
      have h0 : cov.Pairwise (fun n n' => n.2.2.1 = n'.2.2.1 →
          n.1 + n.2.1 ≤ n'.1 ∨ n'.1 + n'.2.1 ≤ n.1) :=
        hPW.sublist (List.filter_sublist _)
      refine h0.imp_of_mem ?_
      intro a b ha hb hR heq
      obtain ⟨ha1, ha2, _⟩ := hcov a ha
      obtain ⟨hb1, hb2, _⟩ := hcov b hb
      rcases hR heq with hd | hd <;> linarith
    exact List.pairwise_map.mpr hpw2
  have hsub : ∀ z ∈ cov.map (fun n => n.2.2.1),
      z ∈ (C (Nat.floor (t / dlt))).map (fun p : ℕ => 21 + (p : ℤ)) := by
    intro z hz
    obtain ⟨n, hn, hzeq⟩ := List.mem_map.mp hz
    obtain ⟨p, hp, hpC⟩ := hpitch n hn
    exact List.mem_map.mpr ⟨p, hpC, by rw [← hzeq, hp]⟩
  calc cov.length
      = (cov.map (fun n => n.2.2.1)).length := (List.length_map _ _).symm
    _ = (cov.map (fun n => n.2.2.1)).toFinset.card :=
        (List.toFinset_card_of_nodup hnd).symm
    _ ≤ ((C (Nat.floor (t / dlt))).map (fun p : ℕ => 21 + (p : ℤ))).toFinset.card :=
        Finset.card_le_card (fun z hz =>
          List.mem_toFinset.mpr (hsub z (List.mem_toFinset.mp hz)))
    _ ≤ ((C (Nat.floor (t / dlt))).map (fun p : ℕ => 21 + (p : ℤ))).length :=
        List.toFinset_card_le _
    _ = (C (Nat.floor (t / dlt))).length := List.length_map _ _

theorem polyNotes_count_aux (dlt minDur : ℚ) (normSal : ℕ → ℕ → ℚ)
    (curs : List (List ℕ)) (hcn : ∀ cur ∈ curs, cur.Nodup)
    (hdlt : 0 < dlt) (fN : ℕ) (hfN : fN ≤ curs.length) (t : ℚ) :
    (((polyRun dlt minDur normSal 0 ([], []) curs).2 ++
        (polyRun dlt minDur normSal 0 ([], []) curs).1.filterMap
          (closeNote dlt minDur normSal fN)).filter
        (fun n => decide (n.1 ≤ t) && decide (t < n.1 + n.2.1))).length ≤
      (curs.getD (Nat.floor (t / dlt)) []).length := by
  have hCn : ∀ m, (curs.getD m [] : List ℕ).Nodup := by
    intro m
    by_cases hm : m < curs.length
    · rw [List.getD_eq_getElem _ _ hm]
      exact hcn _ (List.getElem_mem _)
    · rw [List.getD_eq_default _ _ (le_of_not_lt hm)]
      exact List.nodup_nil
  have hinv0 : polyInv dlt (fun m => curs.getD m []) 0 ([], []) := by
    refine ⟨?_, ?_, ?_, ?_, ?_⟩ <;> simp
  have hget : ∀ j, j < curs.length →
      curs.getD j [] = (fun m => curs.getD m []) ((0 : ℕ) + j) := by
    intro j hj
    simp
  have hrun := polyRun_inv dlt minDur normSal (fun m => curs.getD m []) hdlt.le hCn
    curs 0 ([], []) hinv0 hget
  rw [show (0 : ℕ) + curs.length = curs.length from by omega] at hrun
  obtain ⟨hA, hB, hC, hD, hE⟩ := hrun
  apply covering_count dlt (fun m => curs.getD m []) t hdlt
  · intro n hn
    rcases List.mem_append.mp hn with hold | hnew
    · obtain ⟨p, s, e, h1, h2, h3, _, h5⟩ := hB n hold
      exact ⟨p, s, e, h1, h2, h3, h5⟩
    · obtain ⟨a, hamem, ha⟩ := List.mem_filterMap.mp hnew
      obtain ⟨hs, he, hp⟩ := closeNote_spec dlt minDur normSal fN a n ha
      obtain ⟨has, hacov⟩ := hA a hamem
      refine ⟨a.1, a.2.1, fN, hp, hs, he, ?_⟩
      intro m hm1 hm2
      exact hacov m hm1 (lt_of_lt_of_le hm2 hfN)
  · rw [List.pairwise_append]
    have hpne : (polyRun dlt minDur normSal 0 ([], []) curs).1.Pairwise
        (fun a b : PAct => a.1 ≠ b.1) := List.pairwise_map.mp hC
    refine ⟨hE, ?_, ?_⟩
    · apply pairwise_filterMap_of (closeNote dlt minDur normSal fN) _ hpne
      intro a a' hS x hx y hy
      obtain ⟨_, _, hxp⟩ := closeNote_spec dlt minDur normSal fN a x hx
      obtain ⟨_, _, hyp⟩ := closeNote_spec dlt minDur normSal fN a' y hy
      intro heq
      exfalso
      apply hS
      have h3 : (21 : ℤ) + (a.1 : ℤ) = 21 + (a'.1 : ℤ) := by rw [← hxp, heq, hyp]
      have h4 : ((a.1 : ℤ)) = (a'.1 : ℤ) := by linarith
      exact_mod_cast h4
    · intro n hn1 n' hn'
      obtain ⟨b, hbmem, hb⟩ := List.mem_filterMap.mp hn'
      obtain ⟨hbs, _, hbp⟩ := closeNote_spec dlt minDur normSal fN b n' hb
      intro heq
      left
      have h1 : n.2.2.1 = 21 + (b.1 : ℤ) := by rw [heq, hbp]
      have h2 := hD n hn1 b hbmem h1
      rw [hbs]
      exact h2

theorem length_filter_insertionSort {α : Type} (r : α → α → Prop) [DecidableRel r]
    (p : α → Bool) (l : List α) :
    ((l.insertionSort r).filter p).length = (l.filter p).length :=
  ((List.perm_insertionSort r l).filter p).length_eq

/-- C9: for every salience input and every time instant `t`, at most
`max_polyphony` of the notes emitted by `detect_polyphonic_notes` have a
half-open span `[start, start + duration)` containing `t`: each frame keeps
at most `max_polyphony` peaks, a pitch's active span covers only frames in
which it was among the kept peaks, and same-pitch notes have disjoint spans,
so the notes covering `t` inject into the kept peaks of the frame
containing `t`. -/
theorem c9_polyphony_bound (dlt minDur th : ℚ) (maxPoly : ℕ)
    (sal : List (List ℚ)) (t : ℚ) (hdlt : 0 < dlt) :
    ((detectPolyNotes dlt minDur th maxPoly sal).filter
        (fun n => decide (n.1 ≤ t) && decide (t < n.1 + n.2.1))).length ≤ maxPoly := by
  have hdef : detectPolyNotes dlt minDur th maxPoly sal =
      ((polyRun dlt minDur
          (fun p f => (((sal.map normalizeCol).getD f []).getD p 0)) 0 ([], [])
          ((sal.map normalizeCol).map (selectPitches maxPoly th))).2 ++
        (polyRun dlt minDur
          (fun p f => (((sal.map normalizeCol).getD f []).getD p 0)) 0 ([], [])
          ((sal.map normalizeCol).map (selectPitches maxPoly th))).1.filterMap
          (closeNote dlt minDur
            (fun p f => (((sal.map normalizeCol).getD f []).getD p 0))
            (sal.length - 1))).insertionSort (fun a b => a.1 ≤ b.1) := rfl
  rw [hdef, length_filter_insertionSort]
  refine le_trans (polyNotes_count_aux dlt minDur _ _ ?_ hdlt (sal.length - 1) ?_ t) ?_
  · intro cur hcur
    obtain ⟨col, _, hceq⟩ := List.mem_map.mp hcur
    rw [← hceq]
    exact selectPitches_nodup _ _ _
  · rw [List.length_map, List.length_map]
    exact Nat.sub_le _ _
  · by_cases hm : Nat.floor (t / dlt) <
        ((sal.map normalizeCol).map (selectPitches maxPoly th)).length
    · rw [List.getD_eq_getElem _ _ hm, List.getElem_map]
      exact selectPitches_length _ _ _
    · rw [List.getD_eq_default _ _ (le_of_not_lt hm)]
      simp

/-- Witness for C9 at a concrete input: frame spacing 1, a single three-bin
column, `max_polyphony = 4`, time 0; the positivity hypothesis is discharged
at `1`. -/
theorem c9_polyphony_bound_witness :
    ((detectPolyNotes 1 (1/10) (1/2) 4 [[0, 1, 0]]).filter
        (fun n => decide (n.1 ≤ (0 : ℚ)) && decide ((0 : ℚ) < n.1 + n.2.1))).length ≤ 4 :=
  c9_polyphony_bound 1 (1/10) (1/2) 4 [[0, 1, 0]] 0 one_pos
